import Mathlib

/-!
# Web-Crowler: a verification development

A shallow embedding of the crawl engine of `internal/crawler` (Go) and theorems
about it.

Conventions of the embedding.

* A Go `string` is its byte sequence: `GoString = List Nat`, every element a byte
  value.  Byte offsets (`line[11:]`) are list offsets.
* Go `int` is `Int` with the results of arithmetic wrapped to 64 bits (`wrapInt`);
  a length (`len`) is a natural number and needs no wrapping.
* A Go `map[string]*PageData` is an association list; every key owns its own
  record (the program never stores one pointer under two keys), so the pointer
  indirection is dropped and `pageData.LinkCount++` becomes an in-place update of
  the entry.
* Code that runs under `cfg.Mu` is one atomic transition.
-/

namespace Crawler

/-- A Go string: its bytes. -/
abbrev GoString := List Nat

/-! ## configure.go: the data model -/

/-- The `AnalysisResult` struct of analyzer.go. -/
structure AnalysisResult where
  SEO : List GoString
  ContentQuality : List GoString
  Accessibility : List GoString
  Performance : List GoString
  deriving DecidableEq, Repr

/-- The `PageData` struct of configure.go; `Suggestions` is a nilable pointer. -/
structure PageData where
  LinkCount : Int
  Title : GoString
  Description : GoString
  Keywords : GoString
  Author : GoString
  Canonical : GoString
  Language : GoString
  Charset : GoString
  OGImage : GoString
  OGType : GoString
  OGURL : GoString
  OGSiteName : GoString
  TwitterCard : GoString
  TwitterSite : GoString
  TwitterImage : GoString
  Suggestions : Option AnalysisResult
  deriving DecidableEq, Repr

/-- The composite literal `&PageData{LinkCount: n}`: every other field has its
zero value. -/
def PageData.withCount (n : Int) : PageData :=
  { LinkCount := n, Title := [], Description := [], Keywords := [], Author := [],
    Canonical := [], Language := [], Charset := [], OGImage := [], OGType := [],
    OGURL := [], OGSiteName := [], TwitterCard := [], TwitterSite := [],
    TwitterImage := [], Suggestions := none }

/-- The type `map[string]*PageData`. -/
abbrev PagesMap := List (GoString × PageData)

/-- The map read `m[k]` in its two-result form: the record and whether the key is
present. -/
def PagesMap.lookup : PagesMap → GoString → Option PageData
  | [], _ => none
  | (k', v) :: rest, k => if k' = k then some v else PagesMap.lookup rest k

/-- A write through the pointer stored under `k`: the record under `k` is replaced
by `f` of it; a map without the key is left alone. -/
def PagesMap.modify : PagesMap → GoString → (PageData → PageData) → PagesMap
  | [], _, _ => []
  | (k', v) :: rest, k, f =>
    if k' = k then (k', f v) :: rest else (k', v) :: PagesMap.modify rest k f

/-- The map write `m[k] = v`: overwrites the entry of a present key, adds an entry
for an absent one. -/
def PagesMap.insert : PagesMap → GoString → PageData → PagesMap
  | [], k, v => [(k, v)]
  | (k', v') :: rest, k, v =>
    if k' = k then (k', v) :: rest else (k', v') :: PagesMap.insert rest k v

/-- The keys of the map. -/
def PagesMap.keys (m : PagesMap) : List GoString := m.map Prod.fst

/-- A Go map holds each key once. -/
def PagesMap.WF (m : PagesMap) : Prop := m.keys.Nodup

/-! ## The Go standard library: unicode/utf8, unicode, strings

The functions below follow the library's algorithms.  The case tables of package
`unicode` are not part of this repository; they are the parameter `Unicode`.  On
ASCII text no function consults them. -/

/-- The case tables of Go's package `unicode`, as far as the crawler uses them:
`ToLower` on the runes above `MaxASCII` and `SimpleFold`. -/
structure Unicode where
  ToLower : Nat → Nat
  SimpleFold : Nat → Nat

/-- A table without case pairs outside ASCII. -/
def Unicode.caseless : Unicode := { ToLower := id, SimpleFold := id }

/-- The constant `utf8.RuneError`. -/
def RuneError : Nat := 0xFFFD

/-- The constant `utf8.RuneSelf`. -/
def RuneSelf : Nat := 0x80

/-- A continuation byte (`locb <= b <= hicb`). -/
def isCont (b : Nat) : Bool := decide (0x80 ≤ b) && decide (b ≤ 0xBF)

/-- The function `utf8.DecodeRuneInString`: the first rune of `s` and its width in
bytes; `(RuneError, 0)` for the empty string and `(RuneError, 1)` for an invalid
or truncated encoding. -/
def DecodeRune : GoString → Nat × Nat
  | [] => (RuneError, 0)
  | s0 :: rest =>
    if s0 < RuneSelf then (s0, 1)
    else if 0xC2 ≤ s0 ∧ s0 ≤ 0xDF then
      match rest with
      | s1 :: _ =>
        if isCont s1 then ((s0 % 32) * 64 + s1 % 64, 2) else (RuneError, 1)
      | [] => (RuneError, 1)
    else if 0xE0 ≤ s0 ∧ s0 ≤ 0xEF then
      match rest with
      | s1 :: s2 :: _ =>
        let lo := if s0 = 0xE0 then 0xA0 else 0x80
        let hi := if s0 = 0xED then 0x9F else 0xBF
        if lo ≤ s1 ∧ s1 ≤ hi ∧ isCont s2 = true then
          (((s0 % 16) * 64 + s1 % 64) * 64 + s2 % 64, 3)
        else (RuneError, 1)
      | _ => (RuneError, 1)
    else if 0xF0 ≤ s0 ∧ s0 ≤ 0xF4 then
      match rest with
      | s1 :: s2 :: s3 :: _ =>
        let lo := if s0 = 0xF0 then 0x90 else 0x80
        let hi := if s0 = 0xF4 then 0x8F else 0xBF
        if lo ≤ s1 ∧ s1 ≤ hi ∧ isCont s2 = true ∧ isCont s3 = true then
          ((((s0 % 8) * 64 + s1 % 64) * 64 + s2 % 64) * 64 + s3 % 64, 4)
        else (RuneError, 1)
      | _ => (RuneError, 1)
    else (RuneError, 1)

/-- The function `utf8.AppendRune`: the UTF-8 encoding of a rune; a surrogate or
a value above `MaxRune` is written as `RuneError`. -/
def EncodeRune (r : Nat) : GoString :=
  if r ≤ 0x7F then [r]
  else if r ≤ 0x7FF then [0xC0 + r / 64, 0x80 + r % 64]
  else if 0x10FFFF < r ∨ (0xD800 ≤ r ∧ r ≤ 0xDFFF) then [0xEF, 0xBF, 0xBD]
  else if r ≤ 0xFFFF then [0xE0 + r / 4096, 0x80 + (r / 64) % 64, 0x80 + r % 64]
  else [0xF0 + r / 262144, 0x80 + (r / 4096) % 64, 0x80 + (r / 64) % 64, 0x80 + r % 64]

/-- A Go string literal: the UTF-8 bytes of the text. -/
def str (s : String) : GoString := s.toList.flatMap fun c => EncodeRune c.toNat

/-- The loop `for _, c := range s`: the runes of `s`, an invalid byte read as
`RuneError`.  The first argument bounds the number of runes; `s.length` is
enough because every rune is at least one byte wide. -/
def runesAux : Nat → GoString → List Nat
  | 0, _ => []
  | _, [] => []
  | n + 1, b :: rest =>
    let d := DecodeRune (b :: rest)
    d.1 :: runesAux n ((b :: rest).drop d.2)

/-- The runes of a string. -/
def runes (s : GoString) : List Nat := runesAux s.length s

/-- The function `utf8.DecodeLastRuneInString`. -/
def DecodeLastRune (s : GoString) : Nat × Nat :=
  let e := s.length
  if e = 0 then (RuneError, 0)
  else
    let last := s.getD (e - 1) 0
    if last < RuneSelf then (last, 1)
    else
      let lim := e - 4
      let cands := ((List.range (e - 1)).reverse).filter fun p => decide (lim ≤ p)
      let start :=
        match cands.find? fun p => !isCont (s.getD p 0) with
        | some p => p
        | none => lim - 1
      let d := DecodeRune (s.drop start)
      if start + d.2 ≠ e then (RuneError, 1) else d

/-- The function `unicode.IsSpace`. -/
def IsSpace (r : Nat) : Bool :=
  if r ≤ 0xFF then
    decide (r = 0x09 ∨ r = 0x0A ∨ r = 0x0B ∨ r = 0x0C ∨ r = 0x0D ∨ r = 0x20 ∨ r = 0x85 ∨ r = 0xA0)
  else
    decide (r = 0x1680 ∨ (0x2000 ≤ r ∧ r ≤ 0x200A) ∨ r = 0x2028 ∨ r = 0x2029 ∨
      r = 0x202F ∨ r = 0x205F ∨ r = 0x3000)

/-- The function `strings.TrimLeftFunc(s, unicode.IsSpace)`; the first argument
bounds the number of runes removed. -/
def trimLeftAux : Nat → GoString → GoString
  | 0, s => s
  | _, [] => []
  | n + 1, b :: rest =>
    let d := DecodeRune (b :: rest)
    if IsSpace d.1 then trimLeftAux n ((b :: rest).drop d.2) else b :: rest

/-- The loop of `lastIndexFunc(s, unicode.IsSpace, false)` from position `i`
downwards: the start of the last rune before `i` that is no space. -/
def lastIndexNotSpace : Nat → GoString → Nat → Option Nat
  | 0, _, _ => none
  | n + 1, s, i =>
    if i = 0 then none
    else
      let d := DecodeLastRune (s.take i)
      if IsSpace d.1 then lastIndexNotSpace n s (i - d.2) else some (i - d.2)

/-- The function `strings.TrimRightFunc(s, unicode.IsSpace)`. -/
def trimRight (s : GoString) : GoString :=
  match lastIndexNotSpace s.length s s.length with
  | some i =>
    if RuneSelf ≤ s.getD i 0 then s.take (i + (DecodeRune (s.drop i)).2) else s.take (i + 1)
  | none => []

/-- The function `strings.TrimSpace`: leading and trailing white space removed. -/
def TrimSpace (s : GoString) : GoString := trimRight (trimLeftAux s.length s)

/-- The function `strings.HasPrefix`. -/
def HasPrefix : GoString → GoString → Bool
  | _, [] => true
  | [], _ :: _ => false
  | a :: s, b :: p => decide (a = b) && HasPrefix s p

/-- The function `strings.IndexByte`; `none` stands for `-1`. -/
def IndexByte : GoString → Nat → Option Nat
  | [], _ => none
  | a :: s, c => if a = c then some 0 else (IndexByte s c).map (· + 1)

/-- The function `strings.Split(s, "\n")`. -/
def SplitLines : GoString → List GoString
  | [] => [[]]
  | a :: s =>
    if a = 0x0A then [] :: SplitLines s
    else
      match SplitLines s with
      | l :: ls => (a :: l) :: ls
      | [] => [[a]]

/-- The ASCII case of `unicode.ToLower`. -/
def asciiLower (b : Nat) : Nat := if 0x41 ≤ b ∧ b ≤ 0x5A then b + 32 else b

/-- The function `unicode.ToLower`. -/
def Unicode.lower (U : Unicode) (r : Nat) : Nat :=
  if r ≤ 0x7F then asciiLower r else U.ToLower r

/-- The function `strings.ToLower`: the byte-wise fast path on ASCII-only text,
`strings.Map(unicode.ToLower, s)` otherwise. -/
def ToLower (U : Unicode) (s : GoString) : GoString :=
  if s.all (fun b => decide (b < RuneSelf)) then s.map asciiLower
  else (runes s).flatMap fun c => EncodeRune (U.lower c)

/-- The inner loop of `strings.EqualFold`,
`r := SimpleFold(sr); for r != sr && r < tr`, the loop body `r = SimpleFold(r)`,
then the test `r == tr`.  The table's orbits are cycles walked upwards, so the
bound on the number of rounds is never reached with the table of the library. -/
def foldReaches (U : Unicode) (sr tr : Nat) : Nat → Nat → Bool
  | 0, _ => false
  | n + 1, r => if r ≠ sr ∧ r < tr then foldReaches U sr tr n (U.SimpleFold r) else decide (r = tr)

/-- One round of the rune loop of `strings.EqualFold`: whether the runes `sr` and
`tr` are equal under simple case folding. -/
def foldEq (U : Unicode) (sr tr : Nat) : Bool :=
  if tr = sr then true
  else
    let lo := min sr tr
    let hi := max sr tr
    if hi < RuneSelf then decide (0x41 ≤ lo ∧ lo ≤ 0x5A ∧ hi = lo + 32)
    else foldReaches U lo hi (hi + 2) (U.SimpleFold lo)

/-- The function `strings.EqualFold`: both strings are read rune by rune (the
byte loop of the library is the same walk on ASCII bytes) and compared under
simple case folding; both must end together. -/
def EqualFoldAux (U : Unicode) : Nat → GoString → GoString → Bool
  | _, [], t => decide (t = [])
  | _, _ :: _, [] => false
  | 0, _ :: _, _ :: _ => false
  | n + 1, a :: s, b :: t =>
    let ds := DecodeRune (a :: s)
    let dt := DecodeRune (b :: t)
    foldEq U ds.1 dt.1 && EqualFoldAux U n ((a :: s).drop ds.2) ((b :: t).drop dt.2)

/-- The function `strings.EqualFold`. -/
def EqualFold (U : Unicode) (s t : GoString) : Bool := EqualFoldAux U s.length s t

/-- The slice expression `s[n:]`; `none` is the run-time panic "slice bounds out
of range" of an `n` beyond the length. -/
def sliceFrom (s : GoString) (n : Nat) : Option GoString :=
  if n ≤ s.length then some (s.drop n) else none

/-! ## net/url -/

/-- The fields of `url.URL` the crawler reads. -/
structure URL where
  Scheme : GoString
  Host : GoString
  Path : GoString
  deriving DecidableEq, Repr

/-- The function `validOptionalPort` of net/url: empty, or a colon and digits. -/
def validOptionalPort : GoString → Bool
  | [] => true
  | c :: rest => decide (c = 0x3A) && rest.all fun b => decide (0x30 ≤ b) && decide (b ≤ 0x39)

/-- The function `strings.LastIndexByte`. -/
def LastIndexByte (s : GoString) (c : Nat) : Option Nat :=
  ((List.range s.length).reverse).find? fun i => decide (s.getD i 0 = c)

/-- The method `(*URL).Hostname`: `Host` without a valid port and without the
square brackets of an IPv6 literal. -/
def URL.Hostname (u : URL) : GoString :=
  let host :=
    match LastIndexByte u.Host 0x3A with
    | some colon => if validOptionalPort (u.Host.drop colon) then u.Host.take colon else u.Host
    | none => u.Host
  if HasPrefix host [0x5B] && HasPrefix host.reverse [0x5D] then (host.drop 1).take (host.length - 2)
  else host

/-- The function `stringContainsCTLByte` of net/url. -/
def stringContainsCTLByte (s : GoString) : Bool :=
  s.any fun b => decide (b < 0x20) || decide (b = 0x7F)

/-- The extracted attributes of a page: the fourteen results of
`extractMetadata`, in the order the function returns them. -/
structure Metadata where
  title : GoString
  description : GoString
  keywords : GoString
  author : GoString
  canonical : GoString
  language : GoString
  charset : GoString
  ogImage : GoString
  ogType : GoString
  ogURL : GoString
  ogSiteName : GoString
  twitterCard : GoString
  twitterSite : GoString
  twitterImage : GoString
  deriving DecidableEq, Repr

/-- The `AIAnalyzer` struct of analyzer.go. -/
structure AIAnalyzer where
  apiKey : GoString
  provider : GoString
  deriving DecidableEq, Repr

/-- What the crawler calls outside its own logic: the network, the HTML parser,
the URL grammar of net/url, and the functions of this repository that the engine
only calls (`normalizeURL`, `getHTML`, `getURLsFromHTML`, `extractMetadata`, the
two provider requests of the analyzer).  An error result is `none`. -/
structure World where
  /-- The URL grammar of `url.Parse`, applied once the control-character check
  has passed. -/
  parseURL : GoString → Option URL
  /-- The function `normalizeURL`. -/
  normalizeURL : GoString → Option GoString
  /-- The method `getHTML`. -/
  getHTML : GoString → Option GoString
  /-- The function `extractMetadata`. -/
  extractMetadata : GoString → Metadata
  /-- The function `getURLsFromHTML`. -/
  getURLsFromHTML : GoString → URL → Option (List GoString)
  /-- The method `analyzeWithOpenAI` (url, title, description). -/
  analyzeWithOpenAI : AIAnalyzer → GoString → GoString → GoString → Option AnalysisResult
  /-- The method `analyzeWithGemini` (url, title, description). -/
  analyzeWithGemini : AIAnalyzer → GoString → GoString → GoString → Option AnalysisResult
  /-- The request `GET robotsURL` with the given user agent: the status code
  and the body read from the response. -/
  httpGet : GoString → GoString → Option (Int × Option GoString)

/-- The function `url.Parse`: the part before the first `#` must hold no control
byte; the grammar proper is `W.parseURL`. -/
def urlParse (W : World) (rawURL : GoString) : Option URL :=
  let u :=
    match IndexByte rawURL 0x23 with
    | some i => rawURL.take i
    | none => rawURL
  if stringContainsCTLByte u then none else W.parseURL rawURL

/-! ## robots.go -/

/-- The `RobotsChecker` struct of robots.go (its mutex guards nothing after
construction and is left out). -/
structure RobotsChecker where
  disallowed : List GoString
  userAgent : GoString
  deriving DecidableEq, Repr

/-- The loop of `RobotsChecker.parse` over the lines still to read, with the
loop variable `userAgentMatches` and the list `rc.disallowed`.  `none` is a
panic of one of the slices `line[11:]`, `line[9:]`. -/
def RobotsChecker.parseLoop (U : Unicode) (userAgent : GoString) :
    List GoString → Bool → List GoString → Option (List GoString)
  | [], _, disallowed => some disallowed
  | line :: rest, userAgentMatches, disallowed =>
    let line := TrimSpace line
    let line :=
      match IndexByte line 0x23 with
      | some idx => line.take idx
      | none => line
    if line = [] then RobotsChecker.parseLoop U userAgent rest userAgentMatches disallowed
    else
      let lowerLine := ToLower U line
      if HasPrefix lowerLine (str "user-agent:") then
        match sliceFrom line 11 with
        | none => none
        | some tail =>
          let agent := TrimSpace tail
          if agent = str "*" ∨ EqualFold U agent userAgent = true then
            RobotsChecker.parseLoop U userAgent rest true disallowed
          else
            RobotsChecker.parseLoop U userAgent rest false disallowed
      else if userAgentMatches && HasPrefix lowerLine (str "disallow:") then
        match sliceFrom line 9 with
        | none => none
        | some tail =>
          let path := TrimSpace tail
          if path ≠ [] then
            RobotsChecker.parseLoop U userAgent rest userAgentMatches (disallowed ++ [path])
          else
            RobotsChecker.parseLoop U userAgent rest userAgentMatches disallowed
      else RobotsChecker.parseLoop U userAgent rest userAgentMatches disallowed

/-- The method `RobotsChecker.parse`. -/
def RobotsChecker.parse (U : Unicode) (rc : RobotsChecker) (body : GoString) :
    Option RobotsChecker :=
  match RobotsChecker.parseLoop U rc.userAgent (SplitLines body) false rc.disallowed with
  | some disallowed => some { rc with disallowed := disallowed }
  | none => none

/-- The method `RobotsChecker.fetchRobotsTxt`: the rules stay as they are unless
the request succeeds with status 200 and a readable body. -/
def RobotsChecker.fetchRobotsTxt (U : Unicode) (W : World) (rc : RobotsChecker) (baseURL : URL) :
    Option RobotsChecker :=
  let robotsURL := baseURL.Scheme ++ str "://" ++ baseURL.Host ++ str "/robots.txt"
  match W.httpGet robotsURL rc.userAgent with
  | none => some rc
  | some (status, body) =>
    if status ≠ 200 then some rc
    else
      match body with
      | none => some rc
      | some b => rc.parse U b

/-- The function `NewRobotsChecker`. -/
def NewRobotsChecker (U : Unicode) (W : World) (baseURL : URL) (userAgent : GoString) :
    Option RobotsChecker :=
  RobotsChecker.fetchRobotsTxt U W { disallowed := [], userAgent := userAgent } baseURL

/-- The loop of `IsAllowed` over `rc.disallowed`. -/
def disallowLoop (path : GoString) : List GoString → Bool
  | [] => true
  | disallowed :: rest => if HasPrefix path disallowed then false else disallowLoop path rest

/-- The method `RobotsChecker.IsAllowed`. -/
def RobotsChecker.IsAllowed (W : World) (rc : RobotsChecker) (u : GoString) : Bool :=
  match urlParse W u with
  | none => false
  | some parsedURL =>
    let path := if parsedURL.Path = [] then str "/" else parsedURL.Path
    disallowLoop path rc.disallowed

/-! ## configure.go: the configuration and the visit ledger -/

/-- A buffered channel of `struct{}`: its capacity and the number of elements
in its buffer. -/
structure Chan where
  cap : Nat
  len : Nat
  deriving DecidableEq, Repr

/-- The `Config` struct of configure.go.  `Pages` is the visit ledger.  The fields
`Mu` and `WG` hold no data: the mutex makes the code run under it atomic, the
wait group counts the tasks that are not finished. -/
structure Config where
  Pages : PagesMap
  BaseURL : URL
  ConcurrencyControl : Chan
  MaxPages : Int
  Robots : RobotsChecker
  RateLimit : Int
  UserAgent : GoString
  JSONOutput : Bool
  Analyzer : Option AIAnalyzer
  deriving DecidableEq, Repr

/-- The value of an integer result as a Go `int` of 64 bits: arithmetic on `int`
wraps around in two's complement. -/
def wrapInt (n : Int) : Int :=
  (n + 9223372036854775808) % 18446744073709551616 - 9223372036854775808

/-- The largest `int`, `math.MaxInt64`. -/
def maxInt : Int := 9223372036854775807

/-- The smallest `int`, `math.MinInt64`. -/
def minInt : Int := -9223372036854775808

/-- The statement `pageData.LinkCount++`, which wraps at the largest `int`. -/
def PageData.increment (pageData : PageData) : PageData :=
  { pageData with LinkCount := wrapInt (pageData.LinkCount + 1) }

/-- The method `Config.addPageVisit`: the configuration after the call and the
result `isFirst`. -/
def Config.addPageVisit (cfg : Config) (normalizedURL : GoString) : Config × Bool :=
  match cfg.Pages.lookup normalizedURL with
  | some _ =>
    ({ cfg with Pages := cfg.Pages.modify normalizedURL PageData.increment }, false)
  | none =>
    ({ cfg with Pages := cfg.Pages.insert normalizedURL (PageData.withCount 1) }, true)

/-- The method `Config.PagesLen`. -/
def Config.PagesLen (cfg : Config) : Int := (cfg.Pages.length : Int)

/-- The function `NewAIAnalyzer`. -/
def NewAIAnalyzer (apiKey provider : GoString) : AIAnalyzer :=
  { apiKey := apiKey, provider := if provider = [] then str "openai" else provider }

/-- The function `Configure`.  The outer `none` is a panic (a negative channel
capacity, or a panic of the robots parser); `some none` is the error return of
an unparsable base URL. -/
def Configure (U : Unicode) (W : World) (rawBaseURL : GoString) (maxConcurrency maxPages : Int)
    (rateLimit : Int) (userAgent : GoString) (jsonOutput : Bool) (apiKey aiProvider : GoString) :
    Option (Option Config) :=
  match urlParse W rawBaseURL with
  | none => some none
  | some baseURL =>
    let analyzer := if apiKey ≠ [] then some (NewAIAnalyzer apiKey aiProvider) else none
    if maxConcurrency < 0 then none
    else
      match NewRobotsChecker U W baseURL userAgent with
      | none => none
      | some robots =>
        some (some
          { Pages := []
            BaseURL := baseURL
            ConcurrencyControl := { cap := maxConcurrency.toNat, len := 0 }
            MaxPages := maxPages
            Robots := robots
            RateLimit := rateLimit
            UserAgent := userAgent
            JSONOutput := jsonOutput
            Analyzer := analyzer })

/-- A sequence of `addPageVisit` calls, one per URL of the list, in order: the
configuration at the end and the results of the calls. -/
def Config.addPageVisits (cfg : Config) : List GoString → Config × List Bool
  | [] => (cfg, [])
  | u :: us =>
    let r := cfg.addPageVisit u
    let rs := Config.addPageVisits r.1 us
    (rs.1, r.2 :: rs.2)

/-! ## analyzer.go, crawl_page.go -/

/-- The method `AIAnalyzer.AnalyzePage`; `none` is the error return. -/
def AIAnalyzer.AnalyzePage (W : World) (a : AIAnalyzer) (url title description : GoString) :
    Option AnalysisResult :=
  if a.apiKey = [] then none
  else if a.provider = str "openai" then W.analyzeWithOpenAI a url title description
  else if a.provider = str "gemini" then W.analyzeWithGemini a url title description
  else if a.provider = str "anthropic" then none
  else none

/-- The writes of the attach block of `CrawlPage` to the record `data`: the
fourteen attributes, and `Suggestions` when an analyzer is configured and its
call succeeds. -/
def attachTo (W : World) (analyzer : Option AIAnalyzer) (rawCurrentURL : GoString) (m : Metadata)
    (data : PageData) : PageData :=
  let data :=
    { data with
      Title := m.title, Description := m.description, Keywords := m.keywords,
      Author := m.author, Canonical := m.canonical, Language := m.language,
      Charset := m.charset, OGImage := m.ogImage, OGType := m.ogType, OGURL := m.ogURL,
      OGSiteName := m.ogSiteName, TwitterCard := m.twitterCard,
      TwitterSite := m.twitterSite, TwitterImage := m.twitterImage }
  match analyzer with
  | some a =>
    match a.AnalyzePage W rawCurrentURL m.title m.description with
    | none => data
    | some analysis => { data with Suggestions := some analysis }
  | none => data

/-- The attach block of `CrawlPage`, from `cfg.Mu.Lock()` to `cfg.Mu.Unlock()`
(crawl_page.go, lines 62-90). -/
def Config.attach (W : World) (cfg : Config) (rawCurrentURL normalizedURL : GoString)
    (m : Metadata) : Config :=
  match cfg.Pages.lookup normalizedURL with
  | some _ =>
    { cfg with
      Pages := cfg.Pages.modify normalizedURL (attachTo W cfg.Analyzer rawCurrentURL m) }
  | none => cfg

/-- The `return` at which a call of `CrawlPage` ends, in the order of the source;
`spawned` is the end of the function body, with the URLs a task was started for. -/
inductive Exit where
  | overBudget
  | parseError
  | otherHost
  | robotsDisallowed
  | normalizeError
  | seenBefore
  | fetchError
  | linksError
  | spawned (nextURLs : List GoString)
  deriving DecidableEq, Repr

/-- Whether the call reached `cfg.getHTML`. -/
def Exit.fetched : Exit → Bool
  | .fetchError => true
  | .linksError => true
  | .spawned _ => true
  | _ => false

/-- The tasks `go cfg.CrawlPage(nextURL)` a call starts. -/
def Exit.children : Exit → List GoString
  | .spawned nextURLs => nextURLs
  | _ => []

/-- The body of the method `Config.CrawlPage`, run without another task in
between: the configuration at the end and the return taken.  The slot of
`ConcurrencyControl` is taken before and released after this body. -/
def Config.CrawlPage (W : World) (cfg : Config) (rawCurrentURL : GoString) : Config × Exit :=
  if cfg.PagesLen ≥ cfg.MaxPages then (cfg, .overBudget)
  else
    match urlParse W rawCurrentURL with
    | none => (cfg, .parseError)
    | some currentURL =>
      if currentURL.Hostname ≠ cfg.BaseURL.Hostname then (cfg, .otherHost)
      else if !cfg.Robots.IsAllowed W rawCurrentURL then (cfg, .robotsDisallowed)
      else
        match W.normalizeURL rawCurrentURL with
        | none => (cfg, .normalizeError)
        | some normalizedURL =>
          let r := cfg.addPageVisit normalizedURL
          let cfg := r.1
          if !r.2 then (cfg, .seenBefore)
          else
            match W.getHTML rawCurrentURL with
            | none => (cfg, .fetchError)
            | some htmlBody =>
              let cfg := cfg.attach W rawCurrentURL normalizedURL (W.extractMetadata htmlBody)
              match W.getURLsFromHTML htmlBody cfg.BaseURL with
              | none => (cfg, .linksError)
              | some nextURLs => (cfg, .spawned nextURLs)

/-- A sequence of `CrawlPage` calls, one after the other, for the URLs of the
list: the configuration at the end. -/
def Config.crawlAll (W : World) (cfg : Config) : List GoString → Config
  | [] => cfg
  | u :: us => Config.crawlAll W (cfg.CrawlPage W u).1 us

/-! ## The tasks of a run

`main` starts one task `go cfg.CrawlPage(seed)`, every task starts one task for
each link of its page.  A task moves in steps; a step is the send or the
receive on `ConcurrencyControl`, a block that runs under `cfg.Mu`, or code that
touches no shared data.  The steps of different tasks interleave freely. -/

/-- Where a `CrawlPage` task stands, with its local variables. -/
inductive Task where
  /-- At the send `cfg.ConcurrencyControl <- struct{}{}`. -/
  | waiting (rawCurrentURL : GoString)
  /-- Holds a slot; at the budget check `cfg.PagesLen() >= cfg.MaxPages`. -/
  | admitted (rawCurrentURL : GoString)
  /-- Passed the budget, host, robots and normalization checks; at
  `cfg.addPageVisit(normalizedURL)`. -/
  | checked (rawCurrentURL normalizedURL : GoString)
  /-- Registered the page as first sighting; at the sleep and `cfg.getHTML`. -/
  | registered (rawCurrentURL normalizedURL : GoString)
  /-- Has the page body; at the attach block. -/
  | fetched (rawCurrentURL normalizedURL htmlBody : GoString)
  /-- At `getURLsFromHTML` and the loop that starts the child tasks. -/
  | attached (rawCurrentURL htmlBody : GoString)
  /-- The body has returned; at the deferred receive `<-cfg.ConcurrencyControl`. -/
  | returning
  /-- After `cfg.WG.Done()`. -/
  | done
  deriving DecidableEq, Repr

/-- Between the slot acquisition and the slot release. -/
def Task.holdsSlot : Task → Bool
  | .waiting _ => false
  | .done => false
  | _ => true

/-- Between the budget check and the registration. -/
def Task.isChecked : Task → Bool
  | .checked _ _ => true
  | _ => false

/-- Executing the fetch. -/
def Task.isFetching : Task → Bool
  | .registered _ _ => true
  | _ => false

/-- One step of a task: the configuration after it, the task after it, and the
URLs it starts tasks for.  `none`: the task cannot move (a send on a full
channel, a receive on an empty one, a finished task). -/
def Task.step (W : World) (cfg : Config) : Task → Option (Config × Task × List GoString)
  | .waiting rawCurrentURL =>
    if cfg.ConcurrencyControl.len < cfg.ConcurrencyControl.cap then
      some ({ cfg with ConcurrencyControl :=
                { cfg.ConcurrencyControl with len := cfg.ConcurrencyControl.len + 1 } },
            .admitted rawCurrentURL, [])
    else none
  | .admitted rawCurrentURL =>
    if cfg.PagesLen ≥ cfg.MaxPages then some (cfg, .returning, [])
    else
      match urlParse W rawCurrentURL with
      | none => some (cfg, .returning, [])
      | some currentURL =>
        if currentURL.Hostname ≠ cfg.BaseURL.Hostname then some (cfg, .returning, [])
        else if !cfg.Robots.IsAllowed W rawCurrentURL then some (cfg, .returning, [])
        else
          match W.normalizeURL rawCurrentURL with
          | none => some (cfg, .returning, [])
          | some normalizedURL => some (cfg, .checked rawCurrentURL normalizedURL, [])
  | .checked rawCurrentURL normalizedURL =>
    let r := cfg.addPageVisit normalizedURL
    if !r.2 then some (r.1, .returning, [])
    else some (r.1, .registered rawCurrentURL normalizedURL, [])
  | .registered rawCurrentURL normalizedURL =>
    match W.getHTML rawCurrentURL with
    | none => some (cfg, .returning, [])
    | some htmlBody => some (cfg, .fetched rawCurrentURL normalizedURL htmlBody, [])
  | .fetched rawCurrentURL normalizedURL htmlBody =>
    some (cfg.attach W rawCurrentURL normalizedURL (W.extractMetadata htmlBody),
          .attached rawCurrentURL htmlBody, [])
  | .attached _ htmlBody =>
    match W.getURLsFromHTML htmlBody cfg.BaseURL with
    | none => some (cfg, .returning, [])
    | some nextURLs => some (cfg, .returning, nextURLs)
  | .returning =>
    if 0 < cfg.ConcurrencyControl.len then
      some ({ cfg with ConcurrencyControl :=
                { cfg.ConcurrencyControl with len := cfg.ConcurrencyControl.len - 1 } },
            .done, [])
    else none
  | .done => none

/-- A run in progress: the shared configuration and every task started so far. -/
structure System where
  cfg : Config
  tasks : List Task
  deriving DecidableEq, Repr

/-- The start of a run in `main`: `cfg.WG.Add(1); go cfg.CrawlPage(seed)`. -/
def System.start (cfg : Config) (seed : GoString) : System :=
  { cfg := cfg, tasks := [.waiting seed] }

/-- The scheduler lets task number `i` take its next step; nothing happens when
there is no such task or it cannot move. -/
def System.step (W : World) (s : System) (i : Nat) : System :=
  match s.tasks.get? i with
  | none => s
  | some t =>
    match t.step W s.cfg with
    | none => s
    | some (cfg, t', nextURLs) =>
      { cfg := cfg, tasks := s.tasks.set i t' ++ nextURLs.map Task.waiting }

/-- An interleaving: the tasks step in the order of the schedule. -/
def System.run (W : World) (s : System) : List Nat → System
  | [] => s
  | i :: schedule => System.run W (s.step W i) schedule

/-- The number of tasks that hold a slot. -/
def System.holders (s : System) : Nat := s.tasks.countP Task.holdsSlot

/-- The number of tasks that execute their fetch. -/
def System.fetching (s : System) : Nat := s.tasks.countP Task.isFetching

/-- The steps of one task from the budget check to the end of the function body,
with no step of another task in between: the configuration and the child URLs at
the end.  Five steps reach the end from `admitted`. -/
def Task.runBody (W : World) : Nat → Config → Task → Config × List GoString
  | 0, cfg, _ => (cfg, [])
  | n + 1, cfg, t =>
    match t with
    | .returning => (cfg, [])
    | .done => (cfg, [])
    | t =>
      match t.step W cfg with
      | none => (cfg, [])
      | some (cfg', .returning, nextURLs) => (cfg', nextURLs)
      | some (cfg', t', _) => Task.runBody W n cfg' t'

/-- The occurrence count the ledger holds for `k`; 0 when `k` is no key. -/
def PagesMap.linkCount (m : PagesMap) (k : GoString) : Int :=
  match m.lookup k with
  | some d => d.LinkCount
  | none => 0

/-! ## The robots rule set, line by line, as the code reads it

A description of what `parse` does with each line, in the terms of the code: the
library's `TrimSpace`, `Index` and `ToLower`, and the byte offsets 11 and 9 of
its slices. -/

/-- The line as `parse` goes on with it: `TrimSpace`, then cut at the first
`#`. -/
def cleanLine (line : GoString) : GoString :=
  let t := TrimSpace line
  match IndexByte t 0x23 with
  | some idx => t.take idx
  | none => t

/-- The test `strings.HasPrefix(lowerLine, "user-agent:")`. -/
def isUserAgentLine (U : Unicode) (c : GoString) : Bool :=
  HasPrefix (ToLower U c) (str "user-agent:")

/-- The test `strings.HasPrefix(lowerLine, "disallow:")`. -/
def isDisallowLine (U : Unicode) (c : GoString) : Bool :=
  HasPrefix (ToLower U c) (str "disallow:")

/-- The expression `strings.TrimSpace(line[11:])`: what `parse` takes for the
value of a `user-agent:` line. -/
def agentValue (c : GoString) : GoString := TrimSpace (c.drop 11)

/-- The expression `strings.TrimSpace(line[9:])`: what `parse` takes for the
value of a `disallow:` line. -/
def disallowValue (c : GoString) : GoString := TrimSpace (c.drop 9)

/-- The condition `agent == "*" || strings.EqualFold(agent, rc.userAgent)`. -/
def agentMatches (U : Unicode) (userAgent value : GoString) : Bool :=
  decide (value = str "*") || EqualFold U value userAgent

/-- The value of `userAgentMatches` after the lines `before` (cleaned, in file
order): whether the last of them that passes the `user-agent:` test selects the
configured agent; false when there is none. -/
def governed (U : Unicode) (userAgent : GoString) (before : List GoString) : Bool :=
  match before.reverse.find? (isUserAgentLine U) with
  | some ua => agentMatches U userAgent (agentValue ua)
  | none => false

/-- What `parse` appends at line number `i` of the cleaned lines `cs`: the text
`TrimSpace(line[9:])` of a line that passes the `disallow:` test while
`userAgentMatches` is set, when that text is not empty; nothing otherwise. -/
def ruleAt (U : Unicode) (userAgent : GoString) (cs : List GoString) (i : Nat) :
    Option GoString :=
  let c := cs.getD i []
  if isDisallowLine U c && governed U userAgent (cs.take i) && decide (disallowValue c ≠ []) then
    some (disallowValue c)
  else none

/-- What `parse` appends for a robots.txt body, in file order. -/
def rulesOf (U : Unicode) (userAgent : GoString) (body : GoString) : List GoString :=
  let cs := (SplitLines body).map cleanLine
  (List.range cs.length).filterMap (ruleAt U userAgent cs)

/-! ## An example site

The site `a.test` used to run the definitions on concrete inputs: its front page
links to `/b`, `/c`, `/admin/x` and to another host, `/b` links back to the front
page, and its robots.txt disallows `/admin` for every agent. -/

namespace Example

/-- The URL grammar on the plain URLs of the example, `http://host/path`. -/
def parseURL (rawURL : GoString) : Option URL :=
  if HasPrefix rawURL (str "http://") then
    let rest := rawURL.drop 7
    some { Scheme := str "http", Host := rest.takeWhile (fun b => decide (b ≠ 0x2F)),
           Path := rest.dropWhile (fun b => decide (b ≠ 0x2F)) }
  else none

/-- A normalization: host and path in lower case, without a trailing slash. -/
def normalizeURL (rawURL : GoString) : Option GoString :=
  match parseURL rawURL with
  | none => none
  | some u =>
    let full := (u.Host ++ u.Path).map asciiLower
    some (if HasPrefix full.reverse [0x2F] then full.take (full.length - 1) else full)

/-- The pages of the site: the body served for a URL. -/
def getHTML (rawURL : GoString) : Option GoString :=
  if rawURL = str "http://a.test/" then some (str "front")
  else if rawURL = str "http://a.test/b" then some (str "page b")
  else if rawURL = str "http://a.test/c" then some (str "page c")
  else none

/-- The links of each page body. -/
def getURLsFromHTML (htmlBody : GoString) (_ : URL) : Option (List GoString) :=
  if htmlBody = str "front" then
    some [str "http://a.test/b", str "http://a.test/c", str "http://a.test/admin/x",
          str "http://other.test/"]
  else if htmlBody = str "page b" then some [str "http://a.test/"]
  else some []

/-- The attributes of a page body: its title. -/
def extractMetadata (htmlBody : GoString) : Metadata :=
  { title := htmlBody, description := [], keywords := [], author := [], canonical := [],
    language := [], charset := [], ogImage := [], ogType := [], ogURL := [], ogSiteName := [],
    twitterCard := [], twitterSite := [], twitterImage := [] }

/-- The robots.txt of the site. -/
def robotsTxt : GoString := str "User-agent: *\nDisallow: /admin\n"

/-- The example site as the crawler sees it; the analyzer's providers are down. -/
def world : World :=
  { parseURL := parseURL
    normalizeURL := normalizeURL
    getHTML := getHTML
    extractMetadata := extractMetadata
    getURLsFromHTML := getURLsFromHTML
    analyzeWithOpenAI := fun _ _ _ _ => none
    analyzeWithGemini := fun _ _ _ _ => none
    httpGet := fun robotsURL _ =>
      if robotsURL = str "http://a.test/robots.txt" then some (200, some robotsTxt) else none }

/-- The seed URL. -/
def seed : GoString := str "http://a.test/"

/-- The configuration `Configure` builds for the example site with concurrency 2
and a budget of 2 pages. -/
def config : Config :=
  { Pages := []
    BaseURL := { Scheme := str "http", Host := str "a.test", Path := str "/" }
    ConcurrencyControl := { cap := 2, len := 0 }
    MaxPages := 2
    Robots := { disallowed := [str "/admin"], userAgent := str "Crawler" }
    RateLimit := 0
    UserAgent := str "Crawler"
    JSONOutput := false
    Analyzer := none }

end Example

/-! ## The robots rule set by blocks -/

/-- The rules the lines of one block contribute: the non-empty values of its
`disallow:` lines, in order. -/
def blockRules (U : Unicode) (lines : List GoString) : List GoString :=
  lines.filterMap fun l =>
    if isDisallowLine U (cleanLine l) && decide (disallowValue (cleanLine l) ≠ []) then
      some (disallowValue (cleanLine l))
    else none

/-- Whether a block, given by its `user-agent:` line, selects the configured
agent. -/
def blockMatches (U : Unicode) (userAgent : GoString) (block : GoString × List GoString) : Bool :=
  agentMatches U userAgent (agentValue (cleanLine block.1))

/-- A robots.txt with a wildcard block and two blocks that name the agent
`Crawler`. -/
def Example.threeBlocks : GoString :=
  str "User-agent: *\nDisallow: /a\nUser-agent: Crawler\nDisallow: /b\nUser-agent: Crawler\nDisallow: /c"

/-- The blocks of `Example.threeBlocks`. -/
def Example.blocks : List (GoString × List GoString) :=
  [(str "User-agent: *", [str "Disallow: /a"]),
   (str "User-agent: Crawler", [str "Disallow: /b"]),
   (str "User-agent: Crawler", [str "Disallow: /c"])]

/-- A case table with the two pairs whose lower case is ASCII and shorter than the
upper case: `İ` (U+0130, two bytes) and the Kelvin sign (U+212A, three bytes). -/
def Example.shortening : Unicode :=
  { ToLower := fun r => if r = 0x130 then 0x69 else if r = 0x212A then 0x6B else r
    SimpleFold := id }

/-! ## print_report.go -/

/-- The `Page` struct of print_report.go. -/
structure Page where
  URL : GoString
  Count : Int
  Title : GoString
  Description : GoString
  Keywords : GoString
  Author : GoString
  Canonical : GoString
  Language : GoString
  Charset : GoString
  OGImage : GoString
  OGType : GoString
  OGURL : GoString
  OGSiteName : GoString
  TwitterCard : GoString
  TwitterSite : GoString
  TwitterImage : GoString
  Suggestions : Option AnalysisResult
  deriving DecidableEq, Repr

/-- The composite literal `Page{URL: url, Count: data.LinkCount, ...}` of the loop
of `sortPages`. -/
def Page.ofEntry (url : GoString) (data : PageData) : Page :=
  { URL := url, Count := data.LinkCount, Title := data.Title, Description := data.Description,
    Keywords := data.Keywords, Author := data.Author, Canonical := data.Canonical,
    Language := data.Language, Charset := data.Charset, OGImage := data.OGImage,
    OGType := data.OGType, OGURL := data.OGURL, OGSiteName := data.OGSiteName,
    TwitterCard := data.TwitterCard, TwitterSite := data.TwitterSite,
    TwitterImage := data.TwitterImage, Suggestions := data.Suggestions }

/-- The operator `<` of Go on strings: the byte-wise lexicographic order. -/
def strLess : GoString → GoString → Bool
  | [], [] => false
  | [], _ :: _ => true
  | _ :: _, [] => false
  | a :: s, b :: t => if a < b then true else if b < a then false else strLess s t

/-- The `less` closure `sortPages` passes to `sort.Slice`, on the two elements it
compares. -/
def lessPage (a b : Page) : Bool :=
  if a.Count = b.Count then strLess a.URL b.URL else decide (a.Count > b.Count)

/-- Insertion of `x` into a sorted list, before the first element it is less
than. -/
def insertSorted {α : Type} (less : α → α → Bool) (x : α) : List α → List α
  | [] => [x]
  | y :: ys => if less x y then x :: y :: ys else y :: insertSorted less x ys

/-- The function `sort.Slice`, by its contract: the elements of the slice, in an
order in which no element is less than an earlier one.  It is computed here by
insertion; where `less` is a strict order that compares every two elements of the
slice, as in `sortPages`, there is only one such order of the elements
(`sortSlice_unique`), so every sorting algorithm returns this list. -/
def sortSlice {α : Type} (less : α → α → Bool) : List α → List α
  | [] => []
  | x :: xs => insertSorted less x (sortSlice less xs)

/-- The loop `for url, data := range pages` of `sortPages`, which appends one
`Page` per entry to `pagesSlice`; the entries come in the order of the list, which
stands for the iteration order of the map. -/
def appendPages : List (GoString × PageData) → List Page → List Page
  | [], pagesSlice => pagesSlice
  | (url, data) :: rest, pagesSlice => appendPages rest (pagesSlice ++ [Page.ofEntry url data])

/-- The function `sortPages`.  The argument `none` is the nil map; a result
`none` would be the nil slice. -/
def sortPages (pages : Option PagesMap) : Option (List Page) :=
  let pagesSlice : List Page := []
  let pagesSlice :=
    match pages with
    | none => pagesSlice
    | some m => appendPages m pagesSlice
  some (sortSlice lessPage pagesSlice)

/-- The order the claims state for two pages `p`, `q` with `p` before `q`: the
count of `p` is greater, or the counts are equal and the URL of `p` is smaller. -/
def pageBefore (p q : Page) : Prop :=
  p.Count > q.Count ∨ (p.Count = q.Count ∧ strLess p.URL q.URL = true)

/-- The ledger of the test case "order count then alphabetize" of
print_report_test.go, in the order the test writes it. -/
def Example.ledger : PagesMap :=
  [(str "d", PageData.withCount 2), (str "a", PageData.withCount 1),
   (str "e", PageData.withCount 3), (str "b", PageData.withCount 1),
   (str "c", PageData.withCount 2)]

/-! ## cmd/crawler/main.go -/

/-- The values of the flag variables after `flag.Parse()`. -/
structure Flags where
  url : GoString
  concurrency : Int
  pages : Int
  json : Bool
  out : GoString
  userAgent : GoString
  delay : Int
  analyze : Bool
  aiProvider : GoString
  deriving DecidableEq, Repr

/-- What `main` prints itself, one value per `Print` group of the source. -/
inductive Message where
  /-- The usage lines and `flag.PrintDefaults()`. -/
  | usage
  /-- The lines of "Error: AI analysis requires an API key in .env file". -/
  | apiKeyRequired
  /-- The line "Error - configure: ...". -/
  | configureError
  /-- The line "starting crawl of: ...". -/
  | startingCrawl (url : GoString)
  /-- The line "AI analysis enabled using ...". -/
  | analysisEnabled (provider : GoString)
  deriving DecidableEq, Repr

/-- How a run of `main` goes: the exit status of the process, what `main` printed,
the task it started with `go cfg.CrawlPage(url)` together with the configuration,
and whether it calls `PrintReport` once `cfg.WG.Wait()` has returned.  A return
from `main` is exit status 0, `os.Exit(1)` is 1, a panic is 2. -/
structure MainResult where
  status : Nat
  printed : List Message
  task : Option (Config × GoString)
  report : Bool
  deriving DecidableEq, Repr

/-- The fallback to positional arguments (main.go, lines 29-41): taken only when
the `-url` flag is empty; `scanInt` is `fmt.Sscanf(arg, "%d", ...)`, which leaves
the variable alone when it fails. -/
def positionalFallback (scanInt : GoString → Option Int) (flags : Flags) (args : List GoString) :
    Flags :=
  if flags.url = [] then
    let flags := if args.length ≥ 1 then { flags with url := args.getD 0 [] } else flags
    let flags :=
      if args.length ≥ 2 then
        match scanInt (args.getD 1 []) with
        | some n => { flags with concurrency := n }
        | none => flags
      else flags
    if args.length ≥ 3 then
      match scanInt (args.getD 2 []) with
      | some n => { flags with pages := n }
      | none => flags
    else flags
  else flags

/-- The choice of the API key and of the provider (main.go, lines 52-78), made
when `-analyze` is set: the key of the requested provider if there is one, else
the first key present among Gemini, OpenAI, Anthropic, with the provider set to
match.  The result is the key, empty when none is present, and the provider. -/
def chooseApiKey (getenv : GoString → GoString) (aiProvider : GoString) : GoString × GoString :=
  let openaiKey := getenv (str "OPENAI_API_KEY")
  let geminiKey := getenv (str "GEMINI_API_KEY")
  let anthropicKey := getenv (str "ANTHROPIC_API_KEY")
  if aiProvider = str "openai" ∧ openaiKey ≠ [] then (openaiKey, aiProvider)
  else if aiProvider = str "gemini" ∧ geminiKey ≠ [] then (geminiKey, aiProvider)
  else if aiProvider = str "anthropic" ∧ anthropicKey ≠ [] then (anthropicKey, aiProvider)
  else if geminiKey ≠ [] then (geminiKey, str "gemini")
  else if openaiKey ≠ [] then (openaiKey, str "openai")
  else if anthropicKey ≠ [] then (anthropicKey, str "anthropic")
  else ([], aiProvider)

/-- The function `main`, from the parsed flags on.  `getenv` is `os.Getenv` after
`godotenv.Load()`, `args` is `flag.Args()`. -/
def main (U : Unicode) (W : World) (getenv : GoString → GoString)
    (scanInt : GoString → Option Int) (flags : Flags) (args : List GoString) : MainResult :=
  let flags := positionalFallback scanInt flags args
  if flags.url = [] then
    { status := 1, printed := [.usage], task := none, report := false }
  else
    let chosen := if flags.analyze then chooseApiKey getenv flags.aiProvider else ([], flags.aiProvider)
    let apiKey := chosen.1
    let aiProvider := chosen.2
    if flags.analyze ∧ apiKey = [] then
      { status := 1, printed := [.apiKeyRequired], task := none, report := false }
    else
      match Configure U W flags.url flags.concurrency flags.pages flags.delay flags.userAgent
          flags.json apiKey aiProvider with
      | none => { status := 2, printed := [], task := none, report := false }
      | some none => { status := 0, printed := [.configureError], task := none, report := false }
      | some (some cfg) =>
        let banner :=
          if !flags.json && decide (flags.out = []) then
            [Message.startingCrawl flags.url] ++
              (if flags.analyze then [Message.analysisEnabled aiProvider] else [])
          else []
        { status := 0, printed := banner, task := some (cfg, flags.url), report := true }

/-- The flags of `crawler -url <seed>` with every other flag at its default. -/
def Example.flags (seed : GoString) : Flags :=
  { url := seed, concurrency := 10, pages := 100, json := false, out := [],
    userAgent := str "Crawler", delay := 500000000, analyze := false, aiProvider := str "openai" }

/-- A ledger whose one record has the largest `int` as its count. -/
def Example.fullCount : Config :=
  { Example.config with Pages := [(str "a.test", PageData.withCount maxInt)] }

/-! ## The robots rule set, as the specification words it

Written from the words of the specification, without the code's functions for
trimming and cutting and without its byte offsets: a directive line is
`name: value`, split at its first colon. -/

/-- A white-space byte: space, tab, line feed, vertical tab, form feed, carriage
return. -/
def Spec.isBlank (b : Nat) : Bool :=
  b == 0x20 || b == 0x09 || b == 0x0A || b == 0x0B || b == 0x0C || b == 0x0D

/-- The text without its leading and trailing white space. -/
def Spec.trim (s : GoString) : GoString :=
  ((s.dropWhile Spec.isBlank).reverse.dropWhile Spec.isBlank).reverse

/-- The text before the first `#`: the line without its inline comment. -/
def Spec.uncomment (s : GoString) : GoString :=
  s.takeWhile fun b => b != 0x23

/-- A line after trimming and cutting everything from the first `#`. -/
def Spec.clean (line : GoString) : GoString :=
  Spec.uncomment (Spec.trim line)

/-- The trimmed value of the line if it is the directive `name`: the line has a
colon, the text before its first colon is `name` up to case, and the value is the
text after that colon, white space trimmed. -/
def Spec.valueOf (U : Unicode) (name : GoString) (c : GoString) : Option GoString :=
  if 0x3A ∈ c ∧ ToLower U (c.takeWhile fun b => b != 0x3A) = name then
    some (Spec.trim ((c.dropWhile fun b => b != 0x3A).drop 1))
  else none

/-- Whether the most recent `user-agent` line among the lines `before` (cleaned,
in file order) has the value `*` or a value equal to the configured agent up to
case; false when there is no such line. -/
def Spec.governed (U : Unicode) (userAgent : GoString) (before : List GoString) : Bool :=
  match (before.filterMap (Spec.valueOf U (str "user-agent"))).getLast? with
  | some value => decide (value = str "*") || EqualFold U value userAgent
  | none => false

/-- What line number `i` of the cleaned lines `cs` adds to the rule list: the
value of a `disallow` line that is governed by a matching `user-agent` line and
has a non-empty value; nothing otherwise. -/
def Spec.ruleAt (U : Unicode) (userAgent : GoString) (cs : List GoString) (i : Nat) :
    Option GoString :=
  match Spec.valueOf U (str "disallow") (cs.getD i []) with
  | some value =>
    if Spec.governed U userAgent (cs.take i) && decide (value ≠ []) then some value else none
  | none => none

/-- The rules of a robots.txt body, in file order. -/
def Spec.rules (U : Unicode) (userAgent : GoString) (body : GoString) : List GoString :=
  let cs := (SplitLines body).map Spec.clean
  (List.range cs.length).filterMap (Spec.ruleAt U userAgent cs)

/-- A robots.txt in which `disallow` is spelled with `İ` (U+0130), whose lower
case `i` is one byte shorter: once with a value, once without; then a plain
`Disallow` line with a comment. -/
def Example.dottedRobots : GoString :=
  str "User-agent: *  # every agent\ndİsallow: /x\n  dİsallow:   # no value\nDisallow: /y # keep out\n"

/-- The text is ASCII: every byte is below `utf8.RuneSelf`. -/
def IsASCII (s : GoString) : Prop := ∀ b ∈ s, b < 0x80

/-! # Theorems -/

/-! ## The ledger as a map -/

theorem PagesMap.lookup_eq_none_iff (m : PagesMap) (k : GoString) :
    m.lookup k = none ↔ k ∉ m.keys := by
  induction m with
  | nil => simp [PagesMap.lookup, PagesMap.keys]
  | cons e rest ih =>
    obtain ⟨k', v⟩ := e
    by_cases h : k' = k
    · simp [PagesMap.lookup, PagesMap.keys, h]
    · have h' : ¬ k = k' := fun e => h e.symm
      simp only [PagesMap.keys] at ih
      simp [PagesMap.lookup, PagesMap.keys, h, h', ih]

theorem PagesMap.lookup_isSome_iff (m : PagesMap) (k : GoString) :
    (∃ d, m.lookup k = some d) ↔ k ∈ m.keys := by
  have h := PagesMap.lookup_eq_none_iff m k
  cases hl : m.lookup k with
  | none => simp [hl] at h ⊢; exact h
  | some d => simp [hl] at h ⊢; exact h

theorem PagesMap.keys_modify (m : PagesMap) (k : GoString) (f : PageData → PageData) :
    (m.modify k f).keys = m.keys := by
  induction m with
  | nil => rfl
  | cons e rest ih =>
    obtain ⟨k', v⟩ := e
    simp only [PagesMap.keys] at ih
    by_cases h : k' = k <;> simp [PagesMap.modify, PagesMap.keys, h, ih]

theorem PagesMap.length_modify (m : PagesMap) (k : GoString) (f : PageData → PageData) :
    (m.modify k f).length = m.length := by
  have h := congrArg List.length (PagesMap.keys_modify m k f)
  simpa [PagesMap.keys] using h

theorem PagesMap.lookup_modify_self (m : PagesMap) (k : GoString) (f : PageData → PageData) :
    (m.modify k f).lookup k = (m.lookup k).map f := by
  induction m with
  | nil => rfl
  | cons e rest ih =>
    obtain ⟨k', v⟩ := e
    by_cases h : k' = k <;> simp [PagesMap.modify, PagesMap.lookup, h, ih]

theorem PagesMap.lookup_modify_other (m : PagesMap) (k k' : GoString) (f : PageData → PageData)
    (h : k' ≠ k) : (m.modify k f).lookup k' = m.lookup k' := by
  induction m with
  | nil => rfl
  | cons e rest ih =>
    obtain ⟨k0, v⟩ := e
    by_cases h0 : k0 = k
    · subst h0
      have hk : ¬ k0 = k' := fun e => h e.symm
      simp [PagesMap.modify, PagesMap.lookup, hk]
    · by_cases h1 : k0 = k'
      · subst h1
        simp [PagesMap.modify, PagesMap.lookup, h0]
      · simp [PagesMap.modify, PagesMap.lookup, h0, h1, ih]

theorem PagesMap.keys_insert_absent (m : PagesMap) (k : GoString) (v : PageData)
    (h : k ∉ m.keys) : (m.insert k v).keys = m.keys ++ [k] := by
  induction m with
  | nil => rfl
  | cons e rest ih =>
    obtain ⟨k', v'⟩ := e
    simp only [PagesMap.keys, List.map_cons, List.mem_cons, not_or] at h ih ⊢
    have hk : ¬ k' = k := fun e => h.1 e.symm
    simp [PagesMap.insert, hk, ih h.2]

theorem PagesMap.lookup_insert_self (m : PagesMap) (k : GoString) (v : PageData) :
    (m.insert k v).lookup k = some v := by
  induction m with
  | nil => simp [PagesMap.insert, PagesMap.lookup]
  | cons e rest ih =>
    obtain ⟨k', v'⟩ := e
    by_cases h : k' = k <;> simp [PagesMap.insert, PagesMap.lookup, h, ih]

theorem PagesMap.lookup_insert_other (m : PagesMap) (k k' : GoString) (v : PageData)
    (h : k' ≠ k) : (m.insert k v).lookup k' = m.lookup k' := by
  induction m with
  | nil =>
    have : ¬ k = k' := fun e => h e.symm
    simp [PagesMap.insert, PagesMap.lookup, this]
  | cons e rest ih =>
    obtain ⟨k0, v0⟩ := e
    by_cases h0 : k0 = k
    · subst h0
      have hk : ¬ k0 = k' := fun e => h e.symm
      simp [PagesMap.insert, PagesMap.lookup, hk]
    · by_cases h1 : k0 = k'
      · subst h1
        simp [PagesMap.insert, PagesMap.lookup, h0]
      · simp [PagesMap.insert, PagesMap.lookup, h0, h1, ih]

/-! ## addPageVisit -/

theorem addPageVisit_present (cfg : Config) (u : GoString) (d : PageData)
    (h : cfg.Pages.lookup u = some d) :
    cfg.addPageVisit u = ({ cfg with Pages := cfg.Pages.modify u PageData.increment }, false) := by
  simp [Config.addPageVisit, h]

theorem addPageVisit_absent (cfg : Config) (u : GoString) (h : cfg.Pages.lookup u = none) :
    cfg.addPageVisit u =
      ({ cfg with Pages := cfg.Pages.insert u (PageData.withCount 1) }, true) := by
  simp [Config.addPageVisit, h]

theorem addPageVisit_keys_nodup (cfg : Config) (u : GoString) (h : cfg.Pages.WF) :
    (cfg.addPageVisit u).1.Pages.WF := by
  unfold PagesMap.WF at h ⊢
  cases hl : cfg.Pages.lookup u with
  | some d =>
    rw [addPageVisit_present cfg u d hl]
    simpa [PagesMap.keys_modify] using h
  | none =>
    have hk : u ∉ cfg.Pages.keys := (PagesMap.lookup_eq_none_iff _ _).1 hl
    rw [addPageVisit_absent cfg u hl]
    simp only [PagesMap.keys_insert_absent _ _ _ hk]
    exact List.Nodup.append h (List.nodup_singleton u) (by simpa using hk)

theorem wrapInt_of_range (x : Int) (h1 : minInt ≤ x) (h2 : x ≤ maxInt) : wrapInt x = x := by
  unfold minInt at h1
  unfold maxInt at h2
  unfold wrapInt
  omega

theorem wrapInt_idem (x : Int) : wrapInt (wrapInt x) = wrapInt x := by
  unfold wrapInt
  omega

theorem wrapInt_add (x c : Int) : wrapInt (wrapInt x + c) = wrapInt (x + c) := by
  unfold wrapInt
  omega

/-- C1 as stated fails: on a ledger whose record for `u` holds the largest `int`,
`addPageVisit(u)` leaves the smallest `int` as its `LinkCount`, not the previous
count plus 1. -/
theorem addPageVisit_wraps :
    Example.fullCount.Pages.lookup (str "a.test") = some (PageData.withCount maxInt) ∧
    ((Example.fullCount.addPageVisit (str "a.test")).1.Pages.lookup (str "a.test")).map
      PageData.LinkCount = some minInt ∧
    ((Example.fullCount.addPageVisit (str "a.test")).1.Pages.lookup (str "a.test")).map
      PageData.LinkCount ≠ some ((PageData.withCount maxInt).LinkCount + 1) := by
  decide

/-- C1, as the code has it: `addPageVisit(u)` returns true exactly when `u` was
not a key of `cfg.Pages`.  Afterwards `u` is a key.  When `u` was absent its
`LinkCount` is 1, the ledger has one record more and its keys are the old keys
followed by `u`.  When `u` was present with record `d` its `LinkCount` is
`d.LinkCount + 1` as a Go `int`: `d.LinkCount + 1` when `d.LinkCount` is an `int`
below the largest one, and the smallest `int` when it is the largest; the number
of records and the keys are the same as before.  The record under every other key
is unchanged. -/
theorem addPageVisit_contract (cfg : Config) (u : GoString) :
    ((cfg.addPageVisit u).2 = true ↔ u ∉ cfg.Pages.keys) ∧
    u ∈ (cfg.addPageVisit u).1.Pages.keys ∧
    (u ∉ cfg.Pages.keys →
      ((cfg.addPageVisit u).1.Pages.lookup u).map PageData.LinkCount = some 1 ∧
      (cfg.addPageVisit u).1.Pages.length = cfg.Pages.length + 1 ∧
      (cfg.addPageVisit u).1.Pages.keys = cfg.Pages.keys ++ [u]) ∧
    (∀ d, cfg.Pages.lookup u = some d →
      ((cfg.addPageVisit u).1.Pages.lookup u).map PageData.LinkCount =
        some (wrapInt (d.LinkCount + 1)) ∧
      (minInt ≤ d.LinkCount → d.LinkCount < maxInt →
        ((cfg.addPageVisit u).1.Pages.lookup u).map PageData.LinkCount =
          some (d.LinkCount + 1)) ∧
      (d.LinkCount = maxInt →
        ((cfg.addPageVisit u).1.Pages.lookup u).map PageData.LinkCount = some minInt) ∧
      (cfg.addPageVisit u).1.Pages.length = cfg.Pages.length ∧
      (cfg.addPageVisit u).1.Pages.keys = cfg.Pages.keys) ∧
    (∀ k, k ≠ u → (cfg.addPageVisit u).1.Pages.lookup k = cfg.Pages.lookup k) := by
  cases hl : cfg.Pages.lookup u with
  | some d =>
    have hk : u ∈ cfg.Pages.keys := (PagesMap.lookup_isSome_iff _ _).1 ⟨d, hl⟩
    rw [addPageVisit_present cfg u d hl]
    refine ⟨by simp [hk], by simpa [PagesMap.keys_modify] using hk, fun hn => absurd hk hn, ?_, ?_⟩
    · intro d' hd'
      cases hd'
      have hnew : (PagesMap.lookup (cfg.Pages.modify u PageData.increment) u).map
          PageData.LinkCount = some (wrapInt (d.LinkCount + 1)) := by
        simp [PagesMap.lookup_modify_self, hl, PageData.increment]
      refine ⟨hnew, fun h1 h2 => ?_, fun h => ?_, PagesMap.length_modify _ _ _,
        PagesMap.keys_modify _ _ _⟩
      · rw [hnew, wrapInt_of_range _ (by unfold minInt at *; omega) (by unfold maxInt at *; omega)]
      · rw [hnew, h]
        rfl
    · intro k hk'
      exact PagesMap.lookup_modify_other _ _ _ _ hk'
  | none =>
    have hk : u ∉ cfg.Pages.keys := (PagesMap.lookup_eq_none_iff _ _).1 hl
    rw [addPageVisit_absent cfg u hl]
    have hkeys := PagesMap.keys_insert_absent cfg.Pages u (PageData.withCount 1) hk
    refine ⟨by simp [hk], by simp [hkeys], fun _ => ⟨?_, ?_, hkeys⟩, ?_, ?_⟩
    · simp [PagesMap.lookup_insert_self, PageData.withCount]
    · have h := congrArg List.length hkeys
      simpa [PagesMap.keys] using h
    · intro d' hd'
      cases hd'
    · intro k hk'
      exact PagesMap.lookup_insert_other _ _ _ _ hk'

theorem addPageVisit_result (cfg : Config) (u : GoString) :
    (cfg.addPageVisit u).2 = decide (u ∉ cfg.Pages.keys) := by
  cases hl : cfg.Pages.lookup u with
  | some d =>
    have hk : u ∈ cfg.Pages.keys := (PagesMap.lookup_isSome_iff _ _).1 ⟨d, hl⟩
    simp [addPageVisit_present cfg u d hl, hk]
  | none =>
    have hk : u ∉ cfg.Pages.keys := (PagesMap.lookup_eq_none_iff _ _).1 hl
    simp [addPageVisit_absent cfg u hl, hk]

theorem addPageVisit_mem_keys (cfg : Config) (u k : GoString) :
    k ∈ (cfg.addPageVisit u).1.Pages.keys ↔ k ∈ cfg.Pages.keys ∨ k = u := by
  cases hl : cfg.Pages.lookup u with
  | some d =>
    have hk : u ∈ cfg.Pages.keys := (PagesMap.lookup_isSome_iff _ _).1 ⟨d, hl⟩
    rw [addPageVisit_present cfg u d hl]
    simp only [PagesMap.keys_modify]
    constructor
    · exact Or.inl
    · rintro (h | h)
      · exact h
      · exact h ▸ hk
  | none =>
    have hk : u ∉ cfg.Pages.keys := (PagesMap.lookup_eq_none_iff _ _).1 hl
    rw [addPageVisit_absent cfg u hl]
    simp [PagesMap.keys_insert_absent _ _ _ hk]

/-- Every count the ledger holds is a value of the type `int`. -/
theorem addPageVisit_inRange (cfg : Config) (u : GoString)
    (h : ∀ k, wrapInt (cfg.Pages.linkCount k) = cfg.Pages.linkCount k) (k : GoString) :
    wrapInt ((cfg.addPageVisit u).1.Pages.linkCount k) =
      (cfg.addPageVisit u).1.Pages.linkCount k := by
  by_cases hku : k = u
  · subst hku
    cases hl : cfg.Pages.lookup k with
    | some d =>
      simp [addPageVisit_present cfg k d hl, PagesMap.linkCount, PagesMap.lookup_modify_self, hl,
        PageData.increment, wrapInt_idem]
    | none =>
      simp only [addPageVisit_absent cfg k hl, PagesMap.linkCount, PagesMap.lookup_insert_self,
        PageData.withCount]
      rfl
  · have hk := h k
    cases hl : cfg.Pages.lookup u with
    | some d =>
      simpa [addPageVisit_present cfg u d hl, PagesMap.linkCount,
        PagesMap.lookup_modify_other _ _ _ _ hku] using hk
    | none =>
      simpa [addPageVisit_absent cfg u hl, PagesMap.linkCount,
        PagesMap.lookup_insert_other _ _ _ _ hku] using hk

theorem addPageVisit_linkCount (cfg : Config) (u k : GoString)
    (h : ∀ k, wrapInt (cfg.Pages.linkCount k) = cfg.Pages.linkCount k) :
    (cfg.addPageVisit u).1.Pages.linkCount k =
      wrapInt (cfg.Pages.linkCount k + (if k = u then 1 else 0)) := by
  by_cases hku : k = u
  · subst hku
    cases hl : cfg.Pages.lookup k with
    | some d =>
      simp [addPageVisit_present cfg k d hl, PagesMap.linkCount, PagesMap.lookup_modify_self, hl,
        PageData.increment]
    | none =>
      simp only [addPageVisit_absent cfg k hl, PagesMap.linkCount, PagesMap.lookup_insert_self, hl,
        PageData.withCount, if_true]
      rfl
  · have hk := h k
    cases hl : cfg.Pages.lookup u with
    | some d =>
      simp only [addPageVisit_present cfg u d hl, PagesMap.linkCount,
        PagesMap.lookup_modify_other _ _ _ _ hku, hku, if_false, add_zero] at hk ⊢
      exact hk.symm
    | none =>
      simp only [addPageVisit_absent cfg u hl, PagesMap.linkCount,
        PagesMap.lookup_insert_other _ _ _ _ hku, hku, if_false, add_zero] at hk ⊢
      exact hk.symm

theorem addPageVisit_length_le (cfg : Config) (u : GoString) :
    (cfg.addPageVisit u).1.Pages.length ≤ cfg.Pages.length + 1 := by
  cases hl : cfg.Pages.lookup u with
  | some d =>
    simp [addPageVisit_present cfg u d hl, PagesMap.length_modify]
  | none =>
    have hk : u ∉ cfg.Pages.keys := (PagesMap.lookup_eq_none_iff _ _).1 hl
    have h := congrArg List.length (PagesMap.keys_insert_absent cfg.Pages u (PageData.withCount 1) hk)
    rw [addPageVisit_absent cfg u hl]
    simp [PagesMap.keys] at h
    simp [h]

theorem addPageVisits_length (cfg : Config) (us : List GoString) :
    (cfg.addPageVisits us).2.length = us.length := by
  induction us generalizing cfg with
  | nil => rfl
  | cons u us ih => simp [Config.addPageVisits, ih]

theorem addPageVisits_results (cfg : Config) (us : List GoString) (i : Nat) (u : GoString)
    (h : us[i]? = some u) :
    (cfg.addPageVisits us).2[i]? = some (decide (u ∉ cfg.Pages.keys ∧ u ∉ us.take i)) := by
  induction us generalizing cfg i with
  | nil => simp at h
  | cons w us ih =>
    cases i with
    | zero =>
      simp at h
      subst h
      simp [Config.addPageVisits, addPageVisit_result]
    | succ i =>
      simp at h
      have := ih (cfg.addPageVisit w).1 i h
      simp only [Config.addPageVisits, List.getElem?_cons_succ, this, List.take_succ_cons,
        List.mem_cons, addPageVisit_mem_keys]
      congr 1
      simp only [decide_eq_decide]
      tauto

theorem addPageVisits_mem_keys (cfg : Config) (us : List GoString) (k : GoString) :
    k ∈ (cfg.addPageVisits us).1.Pages.keys ↔ k ∈ cfg.Pages.keys ∨ k ∈ us := by
  induction us generalizing cfg with
  | nil => simp [Config.addPageVisits]
  | cons w us ih =>
    simp only [Config.addPageVisits, ih, addPageVisit_mem_keys, List.mem_cons]
    tauto

theorem addPageVisits_nodup (cfg : Config) (us : List GoString) (h : cfg.Pages.WF) :
    (cfg.addPageVisits us).1.Pages.WF := by
  induction us generalizing cfg with
  | nil => exact h
  | cons w us ih => exact ih _ (addPageVisit_keys_nodup cfg w h)

theorem addPageVisits_linkCount (cfg : Config) (us : List GoString) (k : GoString)
    (h : ∀ k, wrapInt (cfg.Pages.linkCount k) = cfg.Pages.linkCount k) :
    (cfg.addPageVisits us).1.Pages.linkCount k =
      wrapInt (cfg.Pages.linkCount k + (us.count k : Int)) := by
  induction us generalizing cfg with
  | nil => simp [Config.addPageVisits, h k]
  | cons w us ih =>
    simp only [Config.addPageVisits, ih _ (addPageVisit_inRange cfg w h),
      addPageVisit_linkCount cfg w k h, List.count_cons]
    rw [wrapInt_add]
    by_cases hkw : k = w
    · subst hkw
      simp only [if_true, beq_self_eq_true, Nat.cast_add, Nat.cast_one]
      congr 1
      ring
    · have h' : ¬ w = k := fun e => hkw e.symm
      simp [hkw, h']

/-- C2: a sequence of `addPageVisit` calls on an empty ledger returns one result
per call; the call number `i`, made with URL `u`, returns true exactly when no
earlier call was made with `u`.  At the end the keys are exactly the URLs passed,
each key once, and the `LinkCount` under each key is the number of calls made
with it, as a Go `int`: the number itself for every URL passed fewer than 2^63
times. -/
theorem addPageVisits_dedup (cfg : Config) (us : List GoString) (h : cfg.Pages = []) :
    (cfg.addPageVisits us).2.length = us.length ∧
    (∀ i u, us[i]? = some u →
      (cfg.addPageVisits us).2[i]? = some (decide (u ∉ us.take i))) ∧
    (∀ k, k ∈ (cfg.addPageVisits us).1.Pages.keys ↔ k ∈ us) ∧
    (cfg.addPageVisits us).1.Pages.keys.Nodup ∧
    (∀ k, k ∈ us →
      ((cfg.addPageVisits us).1.Pages.lookup k).map PageData.LinkCount =
        some (wrapInt (us.count k : Int))) ∧
    (∀ k, k ∈ us → (us.count k : Int) ≤ maxInt →
      ((cfg.addPageVisits us).1.Pages.lookup k).map PageData.LinkCount =
        some (us.count k : Int)) := by
  have hcount : ∀ k, k ∈ us →
      ((cfg.addPageVisits us).1.Pages.lookup k).map PageData.LinkCount =
        some (wrapInt (us.count k : Int)) := by
    intro k hk
    have hmem : k ∈ (cfg.addPageVisits us).1.Pages.keys :=
      (addPageVisits_mem_keys cfg us k).2 (Or.inr hk)
    obtain ⟨d, hd⟩ := (PagesMap.lookup_isSome_iff _ _).2 hmem
    have hc := addPageVisits_linkCount cfg us k (by
      intro k'
      simp only [PagesMap.linkCount, h, PagesMap.lookup]
      rfl)
    simp only [PagesMap.linkCount, hd, h, PagesMap.lookup, zero_add] at hc
    simp [hd, hc]
  refine ⟨addPageVisits_length cfg us, ?_, ?_, ?_, hcount, ?_⟩
  · intro i u hu
    rw [addPageVisits_results cfg us i u hu]
    simp [h, PagesMap.keys]
  · intro k
    rw [addPageVisits_mem_keys]
    simp [h, PagesMap.keys]
  · exact addPageVisits_nodup cfg us (by simp [PagesMap.WF, PagesMap.keys, h])
  · intro k hk hle
    rw [hcount k hk, wrapInt_of_range _ (by unfold minInt; omega) hle]

/-! ## Strings -/

theorem HasPrefix_iff (s p : GoString) : HasPrefix s p = true ↔ p <+: s := by
  induction p generalizing s with
  | nil => cases s <;> simp [HasPrefix]
  | cons b p ih =>
    cases s with
    | nil => simp [HasPrefix]
    | cons a s =>
      simp only [HasPrefix, Bool.and_eq_true, decide_eq_true_eq, ih, List.cons_prefix_cons]
      constructor
      · rintro ⟨h1, h2⟩; exact ⟨h1.symm, h2⟩
      · rintro ⟨h1, h2⟩; exact ⟨h1.symm, h2⟩

theorem HasPrefix_length (s p : GoString) (h : HasPrefix s p = true) : p.length ≤ s.length :=
  ((HasPrefix_iff s p).1 h).length_le

theorem runesAux_length_le (n : Nat) (s : GoString) : (runesAux n s).length ≤ n := by
  induction n generalizing s with
  | zero => simp [runesAux]
  | succ n ih =>
    cases s with
    | nil => simp [runesAux]
    | cons b rest =>
      simp only [runesAux, List.length_cons]
      exact Nat.succ_le_succ (ih _)

theorem EncodeRune_ascii_head (r b : Nat) (rest : GoString) (h : EncodeRune r = b :: rest)
    (hb : b < 0x80) : rest = [] := by
  unfold EncodeRune at h
  split at h
  · simp at h; exact h.2
  · split at h
    · simp at h; omega
    · split at h
      · simp at h; omega
      · split at h
        · simp at h; omega
        · simp at h; omega

theorem EncodeRune_ne_nil (r : Nat) : EncodeRune r ≠ [] := by
  unfold EncodeRune
  repeat' split
  all_goals simp

theorem ascii_prefix_flatMap (f : Nat → Nat) (rs : List Nat) (p : GoString)
    (hp : ∀ b ∈ p, b < 0x80) (h : p <+: rs.flatMap fun c => EncodeRune (f c)) :
    p.length ≤ rs.length := by
  induction rs generalizing p with
  | nil =>
    simp at h
    simp [h]
  | cons r rs ih =>
    cases p with
    | nil => simp
    | cons b p =>
      cases he : EncodeRune (f r) with
      | nil => exact absurd he (EncodeRune_ne_nil _)
      | cons e0 es =>
        simp only [List.flatMap_cons, he, List.cons_append, List.cons_prefix_cons] at h
        have hb : b < 0x80 := hp b (List.mem_cons_self _ _)
        have hes : es = [] := EncodeRune_ascii_head (f r) e0 es he (h.1 ▸ hb)
        subst hes
        have := ih p (fun x hx => hp x (List.mem_cons_of_mem _ hx)) (by simpa using h.2)
        simp only [List.length_cons]
        omega

/-- The length `ToLower` may change never makes an ASCII prefix of the lowered
line longer than the line itself. -/
theorem ToLower_prefix_length (U : Unicode) (s p : GoString) (hp : ∀ b ∈ p, b < 0x80)
    (h : HasPrefix (ToLower U s) p = true) : p.length ≤ s.length := by
  unfold ToLower at h
  split at h
  · simpa using HasPrefix_length _ _ h
  · have h1 := ascii_prefix_flatMap U.lower (runes s) p hp ((HasPrefix_iff _ _).1 h)
    exact le_trans h1 (runesAux_length_le _ _)

theorem str_userAgent : str "user-agent:" = [117, 115, 101, 114, 45, 97, 103, 101, 110, 116, 58] := by
  decide

theorem str_disallow : str "disallow:" = [100, 105, 115, 97, 108, 108, 111, 119, 58] := by
  decide

theorem userAgentLine_length (U : Unicode) (c : GoString) (h : isUserAgentLine U c = true) :
    11 ≤ c.length := by
  have := ToLower_prefix_length U c (str "user-agent:") (by rw [str_userAgent]; decide) h
  simpa [str_userAgent] using this

theorem disallowLine_length (U : Unicode) (c : GoString) (h : isDisallowLine U c = true) :
    9 ≤ c.length := by
  have := ToLower_prefix_length U c (str "disallow:") (by rw [str_disallow]; decide) h
  simpa [str_disallow] using this

theorem userAgentLine_not_disallow (U : Unicode) (c : GoString) (h : isUserAgentLine U c = true) :
    isDisallowLine U c = false := by
  unfold isUserAgentLine at h
  unfold isDisallowLine
  rw [str_userAgent] at h
  rw [str_disallow]
  cases hl : ToLower U c with
  | nil => simp [HasPrefix]
  | cons a rest =>
    rw [hl] at h
    simp only [HasPrefix, Bool.and_eq_true, decide_eq_true_eq] at h
    simp [HasPrefix, h.1]

/-! ## robots.go: the parser -/

theorem ToLower_nil (U : Unicode) : ToLower U [] = [] := by
  simp [ToLower]

theorem sliceFrom_of_le (s : GoString) (n : Nat) (h : n ≤ s.length) :
    sliceFrom s n = some (s.drop n) := by
  simp [sliceFrom, h]

/-- One round of the loop of `parse`: no slice panics, the flag follows a
`user-agent:` line, a governed `disallow:` line with a value appends it. -/
theorem parseLoop_step (U : Unicode) (a line : GoString) (rest : List GoString) (m : Bool)
    (dis : List GoString) :
    RobotsChecker.parseLoop U a (line :: rest) m dis =
      RobotsChecker.parseLoop U a rest
        (if isUserAgentLine U (cleanLine line) then agentMatches U a (agentValue (cleanLine line))
          else m)
        (dis ++ (if isDisallowLine U (cleanLine line) && m &&
            decide (disallowValue (cleanLine line) ≠ []) then [disallowValue (cleanLine line)]
          else [])) := by
  have hunf : RobotsChecker.parseLoop U a (line :: rest) m dis =
      if cleanLine line = [] then RobotsChecker.parseLoop U a rest m dis
      else if isUserAgentLine U (cleanLine line) then
        match sliceFrom (cleanLine line) 11 with
        | none => none
        | some tail =>
          if TrimSpace tail = str "*" ∨ EqualFold U (TrimSpace tail) a = true then
            RobotsChecker.parseLoop U a rest true dis
          else RobotsChecker.parseLoop U a rest false dis
      else if m && isDisallowLine U (cleanLine line) then
        match sliceFrom (cleanLine line) 9 with
        | none => none
        | some tail =>
          if TrimSpace tail ≠ [] then
            RobotsChecker.parseLoop U a rest m (dis ++ [TrimSpace tail])
          else RobotsChecker.parseLoop U a rest m dis
      else RobotsChecker.parseLoop U a rest m dis := rfl
  rw [hunf]
  by_cases hc : cleanLine line = []
  · have h1 : isUserAgentLine U [] = false := by
      simp [isUserAgentLine, ToLower_nil, str_userAgent, HasPrefix]
    have h2 : isDisallowLine U [] = false := by
      simp [isDisallowLine, ToLower_nil, str_disallow, HasPrefix]
    simp [hc, h1, h2]
  · rw [if_neg hc]
    by_cases hua : isUserAgentLine U (cleanLine line) = true
    · have hd := userAgentLine_not_disallow U _ hua
      rw [if_pos hua, sliceFrom_of_le _ _ (userAgentLine_length U _ hua)]
      simp only [hua, hd, if_true, Bool.false_and, Bool.false_eq_true, if_false,
        List.append_nil]
      by_cases hm : agentMatches U a (agentValue (cleanLine line)) = true
      · have hm' := hm
        simp only [agentMatches, agentValue, Bool.or_eq_true, decide_eq_true_eq] at hm'
        rw [if_pos hm', hm]
      · have hm' := hm
        simp only [agentMatches, agentValue, Bool.or_eq_true, decide_eq_true_eq] at hm'
        rw [if_neg hm']
        simp only [Bool.not_eq_true] at hm
        rw [hm]
    · rw [if_neg hua]
      simp only [hua, Bool.false_eq_true, if_false]
      by_cases hd : isDisallowLine U (cleanLine line) = true
      · cases m with
        | false => simp [hd]
        | true =>
          simp only [hd, Bool.and_self, if_true, Bool.true_and,
            sliceFrom_of_le _ _ (disallowLine_length U _ hd)]
          by_cases hv : disallowValue (cleanLine line) = []
          · have hv' := hv
            simp only [disallowValue] at hv'
            simp [hv, hv']
          · have hv' := hv
            simp only [disallowValue] at hv'
            simp [hv, hv', disallowValue]
      · simp only [Bool.not_eq_true] at hd
        simp [hd]

theorem governed_snoc (U : Unicode) (a : GoString) (cs : List GoString) (c : GoString) :
    governed U a (cs ++ [c]) =
      if isUserAgentLine U c then agentMatches U a (agentValue c) else governed U a cs := by
  unfold governed
  by_cases h : isUserAgentLine U c = true
  · simp [List.reverse_append, List.find?, h]
  · simp only [Bool.not_eq_true] at h
    simp [List.reverse_append, List.find?, h]

theorem ruleAt_middle (U : Unicode) (a : GoString) (pre rest : List GoString) (line : GoString) :
    ruleAt U a ((pre ++ line :: rest).map cleanLine) pre.length =
      if isDisallowLine U (cleanLine line) && governed U a (pre.map cleanLine) &&
          decide (disallowValue (cleanLine line) ≠ []) then
        some (disallowValue (cleanLine line))
      else none := by
  have h1 : ((pre ++ line :: rest).map cleanLine).getD pre.length [] = cleanLine line := by
    rw [List.map_append, List.map_cons, List.getD_eq_getElem?_getD,
      List.getElem?_append_right (by simp)]
    simp
  have h2 : ((pre ++ line :: rest).map cleanLine).take pre.length = pre.map cleanLine := by
    rw [List.map_append, List.take_left']
    simp
  simp only [ruleAt, h1, h2]

theorem filterMap_range_succ {α : Type} (f : Nat → Option α) (n : Nat) :
    (List.range (n + 1)).filterMap f =
      (f 0).toList ++ (List.range n).filterMap fun i => f (i + 1) := by
  rw [List.range_succ_eq_map, List.filterMap_cons, List.filterMap_map]
  cases f 0 <;> rfl

theorem parseLoop_rules (U : Unicode) (a : GoString) (rest pre : List GoString)
    (dis : List GoString) :
    RobotsChecker.parseLoop U a rest (governed U a (pre.map cleanLine)) dis =
      some (dis ++ (List.range rest.length).filterMap fun i =>
        ruleAt U a ((pre ++ rest).map cleanLine) (pre.length + i)) := by
  induction rest generalizing pre dis with
  | nil => simp [RobotsChecker.parseLoop]
  | cons line rest ih =>
    have hg := governed_snoc U a (pre.map cleanLine) (cleanLine line)
    have ih' := ih (pre ++ [line]) (dis ++ (if isDisallowLine U (cleanLine line) &&
      governed U a (pre.map cleanLine) && decide (disallowValue (cleanLine line) ≠ [])
      then [disallowValue (cleanLine line)] else []))
    rw [List.map_append, List.map_singleton, hg] at ih'
    rw [parseLoop_step, ih', List.length_cons, filterMap_range_succ, Nat.add_zero, ruleAt_middle]
    have hf : (fun i => ruleAt U a ((pre ++ [line] ++ rest).map cleanLine)
        ((pre ++ [line]).length + i)) =
        fun i => ruleAt U a ((pre ++ line :: rest).map cleanLine) (pre.length + (i + 1)) := by
      funext i
      rw [List.append_assoc, List.singleton_append, List.length_append, List.length_singleton,
        Nat.add_assoc, Nat.add_comm 1 i]
    rw [hf]
    split <;> simp

/-- The loop of `parse` line by line: `parse` returns, and the rule list after it
is the list before it followed by `rulesOf`, the text `TrimSpace(line[9:])` of
every line that passes the `disallow:` test under a set `userAgentMatches` and
for which that text is not empty. -/
theorem parse_appends_rules (U : Unicode) (rc : RobotsChecker) (body : GoString) :
    rc.parse U body =
        some { rc with disallowed := rc.disallowed ++ rulesOf U rc.userAgent body } ∧
    (∀ cs i, governed U rc.userAgent (cs.take i) = false → ruleAt U rc.userAgent cs i = none) ∧
    (∀ cs i, disallowValue (cs.getD i []) = [] → ruleAt U rc.userAgent cs i = none) ∧
    (∀ cs i, isDisallowLine U (cs.getD i []) = false → ruleAt U rc.userAgent cs i = none) := by
  refine ⟨?_, ?_, ?_, ?_⟩
  · have h := parseLoop_rules U rc.userAgent (SplitLines body) [] rc.disallowed
    have hg : governed U rc.userAgent ([].map cleanLine) = false := rfl
    rw [hg] at h
    simp only [RobotsChecker.parse, h, rulesOf, List.nil_append, List.length_nil, Nat.zero_add,
      List.length_map]
  · intro cs i h
    simp only [ruleAt, h]
    simp
  · intro cs i h
    simp only [ruleAt, h]
    simp
  · intro cs i h
    simp only [ruleAt, h]
    simp

/-! ## robots.go: the query -/

theorem disallowLoop_eq_false (path : GoString) (ds : List GoString) :
    disallowLoop path ds = false ↔ ∃ d ∈ ds, d <+: path := by
  induction ds with
  | nil => simp [disallowLoop]
  | cons d ds ih =>
    show (if HasPrefix path d = true then false else disallowLoop path ds) = false ↔ _
    by_cases h : HasPrefix path d = true
    · have hp := (HasPrefix_iff path d).1 h
      rw [if_pos h]
      exact ⟨fun _ => ⟨d, List.mem_cons_self _ _, hp⟩, fun _ => rfl⟩
    · have hp : ¬ d <+: path := fun hp => h ((HasPrefix_iff path d).2 hp)
      rw [if_neg h, ih]
      constructor
      · rintro ⟨e, he, hpe⟩
        exact ⟨e, List.mem_cons_of_mem _ he, hpe⟩
      · rintro ⟨e, he, hpe⟩
        rcases List.mem_cons.1 he with he | he
        · exact absurd (he ▸ hpe) hp
        · exact ⟨e, he, hpe⟩

theorem IsAllowed_of_parsed (W : World) (rc : RobotsChecker) (u : GoString) (parsed : URL)
    (h : urlParse W u = some parsed) :
    rc.IsAllowed W u =
      disallowLoop (if parsed.Path = [] then str "/" else parsed.Path) rc.disallowed := by
  simp [RobotsChecker.IsAllowed, h]

theorem IsAllowed_of_unparsed (W : World) (rc : RobotsChecker) (u : GoString)
    (h : urlParse W u = none) : rc.IsAllowed W u = false := by
  simp [RobotsChecker.IsAllowed, h]

/-- C4, as the code has it: `IsAllowed(u)` returns false exactly when `u` does
not parse as a URL or some stored disallow entry is a prefix of its path (the path
taken as `/` when it is empty), and true otherwise; with an empty rule set it
returns true for exactly the strings that parse. -/
theorem IsAllowed_contract (W : World) (rc : RobotsChecker) (u : GoString) :
    (rc.IsAllowed W u = false ↔
      urlParse W u = none ∨
      ∃ parsed, urlParse W u = some parsed ∧
        ∃ d ∈ rc.disallowed, d <+: (if parsed.Path = [] then str "/" else parsed.Path)) ∧
    (rc.disallowed = [] → (rc.IsAllowed W u = true ↔ ∃ parsed, urlParse W u = some parsed)) := by
  cases hp : urlParse W u with
  | none => simp [IsAllowed_of_unparsed W rc u hp]
  | some parsed =>
    rw [IsAllowed_of_parsed W rc u parsed hp]
    refine ⟨?_, ?_⟩
    · rw [disallowLoop_eq_false]
      simp
    · intro hd
      simp [hd, disallowLoop]

/-- C4 as stated fails: with an empty rule set `IsAllowed` returns false for a
string that `url.Parse` rejects, here a URL with a line feed in its path. -/
theorem IsAllowed_unparsable :
    ({ disallowed := [], userAgent := str "Crawler" } : RobotsChecker).disallowed = [] ∧
    RobotsChecker.IsAllowed Example.world { disallowed := [], userAgent := str "Crawler" }
      (str "http://a.test/a\nb") = false := by
  decide

/-! ## Frames: what the ledger operations leave alone -/

theorem addPageVisit_frame (cfg : Config) (u : GoString) :
    (cfg.addPageVisit u).1 = { cfg with Pages := (cfg.addPageVisit u).1.Pages } := by
  cases hl : cfg.Pages.lookup u with
  | some d => rw [addPageVisit_present cfg u d hl]
  | none => rw [addPageVisit_absent cfg u hl]

theorem attach_frame (W : World) (cfg : Config) (raw n : GoString) (m : Metadata) :
    cfg.attach W raw n m = { cfg with Pages := (cfg.attach W raw n m).Pages } := by
  unfold Config.attach
  cases cfg.Pages.lookup n <;> rfl

theorem attach_keys (W : World) (cfg : Config) (raw n : GoString) (m : Metadata) :
    (cfg.attach W raw n m).Pages.keys = cfg.Pages.keys := by
  unfold Config.attach
  cases cfg.Pages.lookup n with
  | none => rfl
  | some d => exact PagesMap.keys_modify _ _ _

theorem attach_length (W : World) (cfg : Config) (raw n : GoString) (m : Metadata) :
    (cfg.attach W raw n m).Pages.length = cfg.Pages.length := by
  have h := congrArg List.length (attach_keys W cfg raw n m)
  simpa [PagesMap.keys] using h

/-- The two shapes of a `CrawlPage` call: it returns at one of the gates and
leaves the configuration as it was, or the URL passed every gate and the ledger
is the one after `addPageVisit`, possibly with the attach block run on it. -/
theorem CrawlPage_shape (W : World) (cfg : Config) (raw : GoString) :
    ((cfg.CrawlPage W raw).1 = cfg ∧
      ((cfg.CrawlPage W raw).2 = .overBudget ∨ (cfg.CrawlPage W raw).2 = .parseError ∨
       (cfg.CrawlPage W raw).2 = .otherHost ∨ (cfg.CrawlPage W raw).2 = .robotsDisallowed ∨
       (cfg.CrawlPage W raw).2 = .normalizeError)) ∨
    (∃ parsed n, cfg.PagesLen < cfg.MaxPages ∧ urlParse W raw = some parsed ∧
      parsed.Hostname = cfg.BaseURL.Hostname ∧ cfg.Robots.IsAllowed W raw = true ∧
      W.normalizeURL raw = some n ∧
      ((cfg.CrawlPage W raw).1 = (cfg.addPageVisit n).1 ∨
        ∃ m, (cfg.CrawlPage W raw).1 = (cfg.addPageVisit n).1.attach W raw n m)) := by
  unfold Config.CrawlPage
  by_cases hb : cfg.PagesLen ≥ cfg.MaxPages
  · simp [hb]
  · rw [if_neg hb]
    cases hp : urlParse W raw with
    | none => simp
    | some parsed =>
      by_cases hh : parsed.Hostname ≠ cfg.BaseURL.Hostname
      · simp [hh]
      · simp only [hh, if_false]
        by_cases hr : cfg.Robots.IsAllowed W raw = true
        · simp only [hr, Bool.not_true, Bool.false_eq_true, if_false]
          cases hn : W.normalizeURL raw with
          | none => simp
          | some n =>
            right
            refine ⟨parsed, n, lt_of_not_ge hb, rfl, not_not.1 hh, trivial, rfl, ?_⟩
            simp only []
            split
            · left; rfl
            · split
              · left; rfl
              · split
                · right; exact ⟨_, rfl⟩
                · right; exact ⟨_, rfl⟩
        · simp [hr]

/-! ## crawl_page.go: the gates -/

theorem CrawlPage_otherHost (W : World) (cfg : Config) (raw : GoString) (parsed : URL)
    (hp : urlParse W raw = some parsed) (hh : parsed.Hostname ≠ cfg.BaseURL.Hostname) :
    cfg.CrawlPage W raw =
      (cfg, if cfg.PagesLen ≥ cfg.MaxPages then Exit.overBudget else Exit.otherHost) := by
  unfold Config.CrawlPage
  by_cases hb : cfg.PagesLen ≥ cfg.MaxPages
  · simp [hb]
  · simp [hb, hp, hh]

theorem CrawlPage_disallowed (W : World) (cfg : Config) (raw : GoString)
    (hr : cfg.Robots.IsAllowed W raw = false) :
    (cfg.CrawlPage W raw).1 = cfg ∧
    ((cfg.CrawlPage W raw).2 = .overBudget ∨ (cfg.CrawlPage W raw).2 = .parseError ∨
      (cfg.CrawlPage W raw).2 = .otherHost ∨ (cfg.CrawlPage W raw).2 = .robotsDisallowed) := by
  unfold Config.CrawlPage
  by_cases hb : cfg.PagesLen ≥ cfg.MaxPages
  · simp [hb]
  · rw [if_neg hb]
    cases hp : urlParse W raw with
    | none => simp
    | some parsed =>
      by_cases hh : parsed.Hostname ≠ cfg.BaseURL.Hostname
      · simp [hh]
      · simp [hh, hr]

theorem step_admitted_cases (W : World) (cfg : Config) (raw : GoString) :
    Task.step W cfg (.admitted raw) = some (cfg, .returning, []) ∨
    ∃ parsed n, cfg.PagesLen < cfg.MaxPages ∧ urlParse W raw = some parsed ∧
      parsed.Hostname = cfg.BaseURL.Hostname ∧ cfg.Robots.IsAllowed W raw = true ∧
      W.normalizeURL raw = some n ∧
      Task.step W cfg (.admitted raw) = some (cfg, .checked raw n, []) := by
  simp only [Task.step]
  by_cases hb : cfg.PagesLen ≥ cfg.MaxPages
  · simp [hb]
  · rw [if_neg hb]
    cases hp : urlParse W raw with
    | none => simp
    | some parsed =>
      by_cases hh : parsed.Hostname ≠ cfg.BaseURL.Hostname
      · simp [hh]
      · simp only [hh, if_false]
        by_cases hr : cfg.Robots.IsAllowed W raw = true
        · simp only [hr, Bool.not_true, Bool.false_eq_true, if_false]
          cases hn : W.normalizeURL raw with
          | none => simp
          | some n =>
            right
            exact ⟨parsed, n, lt_of_not_ge hb, rfl, not_not.1 hh, trivial, rfl, rfl⟩
        · simp [hr]

theorem step_admitted_otherHost (W : World) (cfg : Config) (raw : GoString) (parsed : URL)
    (hp : urlParse W raw = some parsed) (hh : parsed.Hostname ≠ cfg.BaseURL.Hostname) :
    Task.step W cfg (.admitted raw) = some (cfg, .returning, []) := by
  rcases step_admitted_cases W cfg raw with h | ⟨parsed', n, _, hp', hh', _⟩
  · exact h
  · rw [hp] at hp'
    cases hp'
    exact absurd hh' hh

theorem step_admitted_disallowed (W : World) (cfg : Config) (raw : GoString)
    (hr : cfg.Robots.IsAllowed W raw = false) :
    Task.step W cfg (.admitted raw) = some (cfg, .returning, []) := by
  rcases step_admitted_cases W cfg raw with h | ⟨_, _, _, _, _, hr', _⟩
  · exact h
  · rw [hr] at hr'
    cases hr'

/-- C6: a candidate URL that parses and whose hostname differs from the
hostname of `cfg.BaseURL` makes `CrawlPage` return at the host check (or already
at the budget check): the configuration with its ledger is unchanged, the call
reaches neither the robots check, the normalization, `addPageVisit` nor
`getHTML`, and starts no task.  As a task it goes from the budget check straight
to its deferred return. -/
theorem host_filter (W : World) (cfg : Config) (raw : GoString) (parsed : URL)
    (hp : urlParse W raw = some parsed) (hh : parsed.Hostname ≠ cfg.BaseURL.Hostname) :
    cfg.CrawlPage W raw =
      (cfg, if cfg.PagesLen ≥ cfg.MaxPages then Exit.overBudget else Exit.otherHost) ∧
    (cfg.CrawlPage W raw).2.fetched = false ∧
    (cfg.CrawlPage W raw).2.children = [] ∧
    Task.step W cfg (.admitted raw) = some (cfg, .returning, []) := by
  have h := CrawlPage_otherHost W cfg raw parsed hp hh
  refine ⟨h, ?_, ?_, step_admitted_otherHost W cfg raw parsed hp hh⟩
  · rw [h]; split <;> rfl
  · rw [h]; split <;> rfl

/-! ## Runs: invariants of every interleaving -/

theorem System.step_cases (W : World) (s : System) (i : Nat) :
    s.step W i = s ∨
    ∃ t cfg t' kids, s.tasks.get? i = some t ∧ t.step W s.cfg = some (cfg, t', kids) ∧
      s.step W i = { cfg := cfg, tasks := s.tasks.set i t' ++ kids.map Task.waiting } := by
  unfold System.step
  cases ht : s.tasks.get? i with
  | none => exact Or.inl rfl
  | some t =>
    cases hs : t.step W s.cfg with
    | none => exact Or.inl (by simp [hs])
    | some r =>
      obtain ⟨cfg, t', kids⟩ := r
      exact Or.inr ⟨t, cfg, t', kids, rfl, hs, by simp [hs]⟩

theorem System.run_invariant (W : World) (P : System → Prop)
    (hstep : ∀ s i, P s → P (s.step W i)) (schedule : List Nat) (s : System) (h : P s) :
    P (s.run W schedule) := by
  induction schedule generalizing s with
  | nil => exact h
  | cons i rest ih => exact ih _ (hstep s i h)

theorem countP_set (p : Task → Bool) (l : List Task) (i : Nat) (t t' : Task)
    (h : l.get? i = some t) :
    (l.set i t').countP p + (if p t then 1 else 0) = l.countP p + (if p t' then 1 else 0) := by
  induction l generalizing i with
  | nil => simp at h
  | cons a l ih =>
    cases i with
    | zero =>
      simp at h
      subst h
      simp only [List.set_cons_zero, List.countP_cons]
      omega
    | succ i =>
      simp at h
      have := ih i (by simpa using h)
      simp only [List.set_cons_succ, List.countP_cons]
      omega

theorem countP_waiting (p : Task → Bool) (hp : ∀ u, p (.waiting u) = false)
    (kids : List GoString) : (kids.map Task.waiting).countP p = 0 := by
  induction kids with
  | nil => rfl
  | cons k kids ih => simp [List.countP_cons, hp, ih]

/-- The seven kinds of step a task can take. -/
theorem step_inversion (W : World) (cfg cfg' : Config) (t t' : Task) (kids : List GoString)
    (h : Task.step W cfg t = some (cfg', t', kids)) :
    (∃ raw, t = .waiting raw ∧ cfg.ConcurrencyControl.len < cfg.ConcurrencyControl.cap ∧
      cfg' = { cfg with ConcurrencyControl :=
        { cfg.ConcurrencyControl with len := cfg.ConcurrencyControl.len + 1 } } ∧
      t' = .admitted raw ∧ kids = []) ∨
    (∃ raw, t = .admitted raw ∧ cfg' = cfg ∧ kids = [] ∧
      (t' = .returning ∨ ∃ n, t' = .checked raw n ∧ cfg.PagesLen < cfg.MaxPages ∧
        cfg.Robots.IsAllowed W raw = true ∧ W.normalizeURL raw = some n)) ∨
    (∃ raw n, t = .checked raw n ∧ cfg' = (cfg.addPageVisit n).1 ∧ kids = [] ∧
      (t' = .returning ∨ t' = .registered raw n)) ∨
    (∃ raw n, t = .registered raw n ∧ cfg' = cfg ∧ kids = [] ∧
      (t' = .returning ∨ ∃ html, t' = .fetched raw n html)) ∨
    (∃ raw n html, t = .fetched raw n html ∧
      cfg' = cfg.attach W raw n (W.extractMetadata html) ∧ t' = .attached raw html ∧ kids = []) ∨
    (∃ raw html, t = .attached raw html ∧ cfg' = cfg ∧ t' = .returning) ∨
    (t = .returning ∧ 0 < cfg.ConcurrencyControl.len ∧
      cfg' = { cfg with ConcurrencyControl :=
        { cfg.ConcurrencyControl with len := cfg.ConcurrencyControl.len - 1 } } ∧
      t' = .done ∧ kids = []) := by
  cases t with
  | waiting raw =>
    simp only [Task.step] at h
    split at h
    · rename_i hlt
      simp only [Option.some.injEq, Prod.mk.injEq] at h
      obtain ⟨h1, h2, h3⟩ := h
      exact Or.inl ⟨raw, rfl, hlt, h1.symm, h2.symm, h3.symm⟩
    · cases h
  | admitted raw =>
    right; left
    rcases step_admitted_cases W cfg raw with h' | ⟨parsed, n, hb, _, _, hr, hn, h'⟩
    · rw [h'] at h
      simp only [Option.some.injEq, Prod.mk.injEq] at h
      obtain ⟨h1, h2, h3⟩ := h
      exact ⟨raw, rfl, h1.symm, h3.symm, Or.inl h2.symm⟩
    · rw [h'] at h
      simp only [Option.some.injEq, Prod.mk.injEq] at h
      obtain ⟨h1, h2, h3⟩ := h
      exact ⟨raw, rfl, h1.symm, h3.symm, Or.inr ⟨n, h2.symm, hb, hr, hn⟩⟩
  | checked raw n =>
    right; right; left
    simp only [Task.step] at h
    split at h
    · simp only [Option.some.injEq, Prod.mk.injEq] at h
      obtain ⟨h1, h2, h3⟩ := h
      exact ⟨raw, n, rfl, h1.symm, h3.symm, Or.inl h2.symm⟩
    · simp only [Option.some.injEq, Prod.mk.injEq] at h
      obtain ⟨h1, h2, h3⟩ := h
      exact ⟨raw, n, rfl, h1.symm, h3.symm, Or.inr h2.symm⟩
  | registered raw n =>
    right; right; right; left
    simp only [Task.step] at h
    split at h
    · simp only [Option.some.injEq, Prod.mk.injEq] at h
      obtain ⟨h1, h2, h3⟩ := h
      exact ⟨raw, n, rfl, h1.symm, h3.symm, Or.inl h2.symm⟩
    · simp only [Option.some.injEq, Prod.mk.injEq] at h
      obtain ⟨h1, h2, h3⟩ := h
      exact ⟨raw, n, rfl, h1.symm, h3.symm, Or.inr ⟨_, h2.symm⟩⟩
  | fetched raw n html =>
    right; right; right; right; left
    simp only [Task.step, Option.some.injEq, Prod.mk.injEq] at h
    obtain ⟨h1, h2, h3⟩ := h
    exact ⟨raw, n, html, rfl, h1.symm, h2.symm, h3.symm⟩
  | attached raw html =>
    right; right; right; right; right; left
    simp only [Task.step] at h
    split at h
    · simp only [Option.some.injEq, Prod.mk.injEq] at h
      obtain ⟨h1, h2, _⟩ := h
      exact ⟨raw, html, rfl, h1.symm, h2.symm⟩
    · simp only [Option.some.injEq, Prod.mk.injEq] at h
      obtain ⟨h1, h2, _⟩ := h
      exact ⟨raw, html, rfl, h1.symm, h2.symm⟩
  | returning =>
    right; right; right; right; right; right
    simp only [Task.step] at h
    split at h
    · rename_i hlt
      simp only [Option.some.injEq, Prod.mk.injEq] at h
      obtain ⟨h1, h2, h3⟩ := h
      exact ⟨rfl, hlt, h1.symm, h2.symm, h3.symm⟩
    · cases h
  | done =>
    simp [Task.step] at h

theorem addPageVisit_settings (cfg : Config) (u : GoString) :
    (cfg.addPageVisit u).1.ConcurrencyControl = cfg.ConcurrencyControl ∧
    (cfg.addPageVisit u).1.MaxPages = cfg.MaxPages ∧
    (cfg.addPageVisit u).1.Robots = cfg.Robots ∧
    (cfg.addPageVisit u).1.BaseURL = cfg.BaseURL := by
  rw [addPageVisit_frame]
  exact ⟨rfl, rfl, rfl, rfl⟩

theorem attach_settings (W : World) (cfg : Config) (raw n : GoString) (m : Metadata) :
    (cfg.attach W raw n m).ConcurrencyControl = cfg.ConcurrencyControl ∧
    (cfg.attach W raw n m).MaxPages = cfg.MaxPages ∧
    (cfg.attach W raw n m).Robots = cfg.Robots ∧
    (cfg.attach W raw n m).BaseURL = cfg.BaseURL := by
  rw [attach_frame]
  exact ⟨rfl, rfl, rfl, rfl⟩

/-- What a step does to the channel. -/
theorem step_channel (W : World) (cfg cfg' : Config) (t t' : Task) (kids : List GoString)
    (h : Task.step W cfg t = some (cfg', t', kids)) :
    cfg'.ConcurrencyControl.cap = cfg.ConcurrencyControl.cap ∧
    cfg'.ConcurrencyControl.len + (if t.holdsSlot then 1 else 0) =
      cfg.ConcurrencyControl.len + (if t'.holdsSlot then 1 else 0) ∧
    (cfg.ConcurrencyControl.len ≤ cfg.ConcurrencyControl.cap →
      cfg'.ConcurrencyControl.len ≤ cfg.ConcurrencyControl.cap) := by
  rcases step_inversion W cfg cfg' t t' kids h with
    ⟨raw, rfl, hlt, rfl, rfl, rfl⟩ | ⟨raw, rfl, rfl, rfl, ht'⟩ | ⟨raw, n, rfl, rfl, rfl, ht'⟩ |
    ⟨raw, n, rfl, rfl, rfl, ht'⟩ | ⟨raw, n, html, rfl, rfl, rfl, rfl⟩ |
    ⟨raw, html, rfl, rfl, rfl⟩ | ⟨rfl, hlt, rfl, rfl, rfl⟩
  · simp only [Task.holdsSlot]
    exact ⟨trivial, by simp, fun _ => hlt⟩
  · rcases ht' with rfl | ⟨n, rfl, _⟩ <;> simp [Task.holdsSlot]
  · rcases ht' with rfl | rfl <;> simp [Task.holdsSlot, (addPageVisit_settings cfg n).1]
  · rcases ht' with rfl | ⟨html, rfl⟩ <;> simp [Task.holdsSlot]
  · simp [Task.holdsSlot, (attach_settings W cfg raw n _).1]
  · simp [Task.holdsSlot]
  · simp only [Task.holdsSlot]
    refine ⟨trivial, ?_, fun hle => ?_⟩
    · simp; omega
    · simp; omega

/-- What a step does to the size of the ledger and to the tasks between the
budget check and the registration. -/
theorem step_budget (W : World) (cfg cfg' : Config) (t t' : Task) (kids : List GoString)
    (h : Task.step W cfg t = some (cfg', t', kids)) :
    cfg'.MaxPages = cfg.MaxPages ∧
    cfg'.Pages.length ≤ cfg.Pages.length + (if t.isChecked then 1 else 0) ∧
    (t'.isChecked = true →
      t.isChecked = false ∧ cfg'.Pages = cfg.Pages ∧ cfg.PagesLen < cfg.MaxPages) ∧
    (t.isChecked = true → t'.isChecked = false) := by
  rcases step_inversion W cfg cfg' t t' kids h with
    ⟨raw, rfl, hlt, rfl, rfl, rfl⟩ | ⟨raw, rfl, rfl, rfl, ht'⟩ | ⟨raw, n, rfl, rfl, rfl, ht'⟩ |
    ⟨raw, n, rfl, rfl, rfl, ht'⟩ | ⟨raw, n, html, rfl, rfl, rfl, rfl⟩ |
    ⟨raw, html, rfl, rfl, rfl⟩ | ⟨rfl, hlt, rfl, rfl, rfl⟩
  · simp [Task.isChecked]
  · rcases ht' with rfl | ⟨n, rfl, hb, _⟩
    · simp [Task.isChecked]
    · simp [Task.isChecked, hb]
  · have hl := addPageVisit_length_le cfg n
    rcases ht' with rfl | rfl <;>
      simp [Task.isChecked, (addPageVisit_settings cfg n).2.1, hl]
  · rcases ht' with rfl | ⟨html, rfl⟩ <;> simp [Task.isChecked]
  · simp [Task.isChecked, (attach_settings W cfg raw n _).2.1, attach_length]
  · simp [Task.isChecked]
  · simp [Task.isChecked]

/-- What a step does to the keys of the ledger: a key is added only by the
registration step, and a task reaches the registration only with the normalized
form of a URL that robots.txt allows. -/
theorem step_keys (W : World) (cfg cfg' : Config) (t t' : Task) (kids : List GoString)
    (h : Task.step W cfg t = some (cfg', t', kids)) :
    cfg'.Robots = cfg.Robots ∧
    (∀ k ∈ cfg'.Pages.keys, k ∈ cfg.Pages.keys ∨ ∃ raw, t = .checked raw k) ∧
    (∀ raw n, t' = .checked raw n →
      cfg.Robots.IsAllowed W raw = true ∧ W.normalizeURL raw = some n) := by
  rcases step_inversion W cfg cfg' t t' kids h with
    ⟨raw, rfl, hlt, rfl, rfl, rfl⟩ | ⟨raw, rfl, rfl, rfl, ht'⟩ | ⟨raw, n, rfl, rfl, rfl, ht'⟩ |
    ⟨raw, n, rfl, rfl, rfl, ht'⟩ | ⟨raw, n, html, rfl, rfl, rfl, rfl⟩ |
    ⟨raw, html, rfl, rfl, rfl⟩ | ⟨rfl, hlt, rfl, rfl, rfl⟩
  · exact ⟨rfl, fun k hk => Or.inl hk, fun _ _ ht => by cases ht⟩
  · refine ⟨rfl, fun k hk => Or.inl hk, fun raw' n' ht => ?_⟩
    rcases ht' with rfl | ⟨n, rfl, _, hr, hn⟩
    · cases ht
    · cases ht
      exact ⟨hr, hn⟩
  · refine ⟨(addPageVisit_settings cfg n).2.2.1, fun k hk => ?_, fun raw' n' ht => ?_⟩
    · rcases (addPageVisit_mem_keys cfg n k).1 hk with hk | rfl
      · exact Or.inl hk
      · exact Or.inr ⟨raw, rfl⟩
    · rcases ht' with rfl | rfl <;> cases ht
  · refine ⟨rfl, fun k hk => Or.inl hk, fun raw' n' ht => ?_⟩
    rcases ht' with rfl | ⟨html, rfl⟩ <;> cases ht
  · refine ⟨(attach_settings W cfg raw n _).2.2.1, fun k hk => ?_, fun _ _ ht => by cases ht⟩
    rw [attach_keys] at hk
    exact Or.inl hk
  · exact ⟨rfl, fun k hk => Or.inl hk, fun _ _ ht => by cases ht⟩
  · exact ⟨rfl, fun k hk => Or.inl hk, fun _ _ ht => by cases ht⟩

theorem mem_tasks_after_step (l : List Task) (i : Nat) (t' x : Task) (kids : List GoString)
    (hx : x ∈ l.set i t' ++ kids.map Task.waiting) :
    x ∈ l ∨ x = t' ∨ ∃ u, x = .waiting u := by
  rcases List.mem_append.1 hx with h | h
  · rcases List.mem_or_eq_of_mem_set h with h | h
    · exact Or.inl h
    · exact Or.inr (Or.inl h)
  · obtain ⟨u, _, hu⟩ := List.mem_map.1 h
    exact Or.inr (Or.inr ⟨u, hu.symm⟩)

theorem checked_le_holders (l : List Task) : l.countP Task.isChecked ≤ l.countP Task.holdsSlot := by
  apply List.countP_mono_left
  intro t _ ht
  cases t <;> simp_all [Task.isChecked, Task.holdsSlot]

theorem fetching_le_holders (l : List Task) :
    l.countP Task.isFetching ≤ l.countP Task.holdsSlot := by
  apply List.countP_mono_left
  intro t _ ht
  cases t <;> simp_all [Task.isFetching, Task.holdsSlot]

/-- The invariant of a run behind the concurrency bound and the budget bound: the
tasks that hold a slot are as many as the channel holds elements, at most its
capacity; with a budget `N ≤ 0` nothing is ever registered; with `N > 0` the
records plus the tasks that passed the budget check and have not registered yet
number at most `N - 1 + cap`. -/
theorem run_bounds (W : World) (cfg : Config) (seed : GoString) (schedule : List Nat)
    (hp : cfg.Pages = []) (hl : cfg.ConcurrencyControl.len = 0) :
    ((System.start cfg seed).run W schedule).cfg.ConcurrencyControl.cap =
        cfg.ConcurrencyControl.cap ∧
    ((System.start cfg seed).run W schedule).cfg.MaxPages = cfg.MaxPages ∧
    ((System.start cfg seed).run W schedule).holders =
        ((System.start cfg seed).run W schedule).cfg.ConcurrencyControl.len ∧
    ((System.start cfg seed).run W schedule).cfg.ConcurrencyControl.len ≤
        cfg.ConcurrencyControl.cap ∧
    (cfg.MaxPages ≤ 0 →
      ((System.start cfg seed).run W schedule).cfg.Pages.length = 0 ∧
      ((System.start cfg seed).run W schedule).tasks.countP Task.isChecked = 0) ∧
    (0 < cfg.MaxPages →
      (((System.start cfg seed).run W schedule).cfg.Pages.length : Int) +
        (((System.start cfg seed).run W schedule).tasks.countP Task.isChecked : Int) ≤
        cfg.MaxPages - 1 + (cfg.ConcurrencyControl.cap : Int)) := by
  apply System.run_invariant W (fun s =>
    s.cfg.ConcurrencyControl.cap = cfg.ConcurrencyControl.cap ∧
    s.cfg.MaxPages = cfg.MaxPages ∧
    s.holders = s.cfg.ConcurrencyControl.len ∧
    s.cfg.ConcurrencyControl.len ≤ cfg.ConcurrencyControl.cap ∧
    (cfg.MaxPages ≤ 0 → s.cfg.Pages.length = 0 ∧ s.tasks.countP Task.isChecked = 0) ∧
    (0 < cfg.MaxPages →
      (s.cfg.Pages.length : Int) + (s.tasks.countP Task.isChecked : Int) ≤
        cfg.MaxPages - 1 + (cfg.ConcurrencyControl.cap : Int)))
  · intro s i ⟨hcap, hmax, hhold, hlen, hzero, hpos⟩
    rcases System.step_cases W s i with hs | ⟨t, cfg', t', kids, hget, hstep, hs⟩
    · rw [hs]
      exact ⟨hcap, hmax, hhold, hlen, hzero, hpos⟩
    · rw [hs]
      obtain ⟨c1, c2, c3⟩ := step_channel W s.cfg cfg' t t' kids hstep
      obtain ⟨b1, b2, b3, b4⟩ := step_budget W s.cfg cfg' t t' kids hstep
      have hH := countP_set Task.holdsSlot s.tasks i t t' hget
      have hK := countP_set Task.isChecked s.tasks i t t' hget
      have hH0 := countP_waiting Task.holdsSlot (fun _ => rfl) kids
      have hK0 := countP_waiting Task.isChecked (fun _ => rfl) kids
      have hle := checked_le_holders (s.tasks.set i t' ++ kids.map Task.waiting)
      simp only [System.holders, List.countP_append, hH0, hK0, Nat.add_zero] at hhold hle ⊢
      have hlen' : cfg'.ConcurrencyControl.len ≤ cfg.ConcurrencyControl.cap := by
        rw [← hcap]; exact c3 (hcap ▸ hlen)
      have hhold' : (s.tasks.set i t').countP Task.holdsSlot = cfg'.ConcurrencyControl.len := by
        omega
      have hlenInt : s.cfg.PagesLen = (s.cfg.Pages.length : Int) := rfl
      refine ⟨c1.trans hcap, b1.trans hmax, hhold', hlen', ?_, ?_⟩
      · intro hN
        obtain ⟨z1, z2⟩ := hzero hN
        by_cases hc' : t'.isChecked = true
        · obtain ⟨_, _, hb⟩ := b3 hc'
          rw [hlenInt, hmax] at hb
          omega
        · by_cases hc : t.isChecked = true
          · simp only [hc, hc', if_true] at hK
            simp only [Bool.false_eq_true, if_false, Nat.add_zero] at hK
            omega
          · simp only [hc, hc'] at hK b2
            simp only [Bool.false_eq_true, if_false, Nat.add_zero] at hK b2
            omega
      · intro hN
        have hsum := hpos hN
        by_cases hc' : t'.isChecked = true
        · obtain ⟨hc, hpg, hb⟩ := b3 hc'
          rw [hlenInt, hmax] at hb
          rw [hpg]
          rw [hhold'] at hle
          omega
        · by_cases hc : t.isChecked = true
          · simp only [hc, hc', if_true] at hK b2
            simp only [Bool.false_eq_true, if_false, Nat.add_zero] at hK
            omega
          · simp only [hc, hc'] at hK b2
            simp only [Bool.false_eq_true, if_false, Nat.add_zero] at hK b2
            omega
  · refine ⟨rfl, rfl, ?_, ?_, ?_, ?_⟩
    · simp [System.start, System.holders, Task.holdsSlot, hl]
    · simp [System.start, hl]
    · intro _
      simp [System.start, hp, Task.isChecked]
    · intro hN
      simp only [System.start, hp, List.length_nil, List.countP_cons, List.countP_nil,
        Task.isChecked]
      simp
      omega

theorem Configure_result (U : Unicode) (W : World) (rawBaseURL : GoString)
    (maxConcurrency maxPages rateLimit : Int) (userAgent : GoString) (jsonOutput : Bool)
    (apiKey aiProvider : GoString) (cfg : Config)
    (h : Configure U W rawBaseURL maxConcurrency maxPages rateLimit userAgent jsonOutput apiKey
      aiProvider = some (some cfg)) :
    cfg.Pages = [] ∧ cfg.ConcurrencyControl = { cap := maxConcurrency.toNat, len := 0 } ∧
    cfg.MaxPages = maxPages ∧ 0 ≤ maxConcurrency := by
  unfold Configure at h
  split at h
  · cases h
  · simp only [] at h
    split at h
    · cases h
    · rename_i hneg
      split at h
      · cases h
      · simp only [Option.some.injEq] at h
        subst h
        exact ⟨rfl, rfl, rfl, not_lt.1 hneg⟩

theorem CrawlPage_settings (W : World) (cfg : Config) (raw : GoString) :
    (cfg.CrawlPage W raw).1.MaxPages = cfg.MaxPages ∧
    (cfg.CrawlPage W raw).1.Robots = cfg.Robots := by
  rcases CrawlPage_shape W cfg raw with ⟨h, _⟩ | ⟨_, n, _, _, _, _, _, h | ⟨m, h⟩⟩
  · rw [h]; exact ⟨rfl, rfl⟩
  · rw [h]
    exact ⟨(addPageVisit_settings cfg n).2.1, (addPageVisit_settings cfg n).2.2.1⟩
  · rw [h]
    exact ⟨((attach_settings W _ raw n m).2.1).trans (addPageVisit_settings cfg n).2.1,
      ((attach_settings W _ raw n m).2.2.1).trans (addPageVisit_settings cfg n).2.2.1⟩

theorem CrawlPage_budget (W : World) (cfg : Config) (raw : GoString)
    (h : (cfg.Pages.length : Int) ≤ max cfg.MaxPages 0) :
    ((cfg.CrawlPage W raw).1.Pages.length : Int) ≤ max cfg.MaxPages 0 := by
  rcases CrawlPage_shape W cfg raw with ⟨h', _⟩ | ⟨_, n, hb, _, _, _, _, h' | ⟨m, h'⟩⟩
  · rw [h']; exact h
  · rw [h']
    have hl := addPageVisit_length_le cfg n
    have hb' : (cfg.Pages.length : Int) < cfg.MaxPages := hb
    have : cfg.MaxPages ≤ max cfg.MaxPages 0 := le_max_left _ _
    omega
  · rw [h', attach_length]
    have hl := addPageVisit_length_le cfg n
    have hb' : (cfg.Pages.length : Int) < cfg.MaxPages := hb
    have : cfg.MaxPages ≤ max cfg.MaxPages 0 := le_max_left _ _
    omega

theorem crawlAll_budget (W : World) (cfg : Config) (raws : List GoString)
    (h : (cfg.Pages.length : Int) ≤ max cfg.MaxPages 0) :
    ((cfg.crawlAll W raws).Pages.length : Int) ≤ max cfg.MaxPages 0 := by
  induction raws generalizing cfg with
  | nil => exact h
  | cons u us ih =>
    have h1 := CrawlPage_budget W cfg u h
    rw [← (CrawlPage_settings W cfg u).1] at h1 ⊢
    exact ih _ h1

theorem CrawlPage_keys (W : World) (cfg : Config) (raw k : GoString)
    (hk : k ∈ (cfg.CrawlPage W raw).1.Pages.keys) :
    k ∈ cfg.Pages.keys ∨ (cfg.Robots.IsAllowed W raw = true ∧ W.normalizeURL raw = some k) := by
  rcases CrawlPage_shape W cfg raw with ⟨h', _⟩ | ⟨_, n, _, _, _, hr, hn, h' | ⟨m, h'⟩⟩
  · rw [h'] at hk; exact Or.inl hk
  · rw [h'] at hk
    rcases (addPageVisit_mem_keys cfg n k).1 hk with hk | rfl
    · exact Or.inl hk
    · exact Or.inr ⟨hr, hn⟩
  · rw [h', attach_keys] at hk
    rcases (addPageVisit_mem_keys cfg n k).1 hk with hk | rfl
    · exact Or.inl hk
    · exact Or.inr ⟨hr, hn⟩

theorem crawlAll_keys (W : World) (cfg : Config) (raws : List GoString) (k : GoString)
    (hk : k ∈ (cfg.crawlAll W raws).Pages.keys) :
    k ∈ cfg.Pages.keys ∨
      ∃ r ∈ raws, cfg.Robots.IsAllowed W r = true ∧ W.normalizeURL r = some k := by
  induction raws generalizing cfg with
  | nil => exact Or.inl hk
  | cons u us ih =>
    rcases ih (cfg.CrawlPage W u).1 hk with h | ⟨r, hr, ha, hn⟩
    · rcases CrawlPage_keys W cfg u k h with h | ⟨ha, hn⟩
      · exact Or.inl h
      · exact Or.inr ⟨u, List.mem_cons_self _ _, ha, hn⟩
    · rw [(CrawlPage_settings W cfg u).2] at ha
      exact Or.inr ⟨r, List.mem_cons_of_mem _ hr, ha, hn⟩

/-- Every key of the ledger of a run is the normalized form of a URL that
robots.txt allows. -/
theorem run_keys (W : World) (cfg : Config) (seed : GoString) (schedule : List Nat)
    (k : GoString) (hk : k ∈ ((System.start cfg seed).run W schedule).cfg.Pages.keys) :
    k ∈ cfg.Pages.keys ∨ ∃ r, cfg.Robots.IsAllowed W r = true ∧ W.normalizeURL r = some k := by
  have hinv := System.run_invariant W (fun s =>
    s.cfg.Robots = cfg.Robots ∧
    (∀ k ∈ s.cfg.Pages.keys,
      k ∈ cfg.Pages.keys ∨ ∃ r, cfg.Robots.IsAllowed W r = true ∧ W.normalizeURL r = some k) ∧
    (∀ raw n, Task.checked raw n ∈ s.tasks →
      cfg.Robots.IsAllowed W raw = true ∧ W.normalizeURL raw = some n)) ?_ schedule
    (System.start cfg seed) ?_
  · exact hinv.2.1 k hk
  · intro s i ⟨hR, hkeys, htasks⟩
    rcases System.step_cases W s i with hs | ⟨t, cfg', t', kids, hget, hstep, hs⟩
    · rw [hs]
      exact ⟨hR, hkeys, htasks⟩
    · rw [hs]
      obtain ⟨k1, k2, k3⟩ := step_keys W s.cfg cfg' t t' kids hstep
      have ht : t ∈ s.tasks := List.get?_mem hget
      refine ⟨k1.trans hR, fun k hk => ?_, fun raw n hmem => ?_⟩
      · rcases k2 k hk with h | ⟨raw, rfl⟩
        · exact hkeys k h
        · exact Or.inr ⟨raw, htasks raw k ht⟩
      · rcases mem_tasks_after_step s.tasks i t' _ kids hmem with h | h | ⟨u, h⟩
        · exact htasks raw n h
        · have := k3 raw n h.symm
          rw [hR] at this
          exact this
        · cases h
  · refine ⟨rfl, fun k hk => Or.inl hk, fun raw n hmem => ?_⟩
    simp [System.start] at hmem

/-! ## The claims about a crawl -/

/-- C5: when the robots rule set of `cfg` contains a prefix `p` and the
candidate URL parses with a path that starts with `p`, `IsAllowed` is false and
`CrawlPage` returns before `addPageVisit` (at the robots check, or already at the
budget or host check): the configuration with its ledger is exactly as before,
and the task goes from the budget check straight to its deferred return.  Hence
every key of a ledger reached from the empty ledger, by a sequence of `CrawlPage`
calls or by any interleaving of the tasks of a run, is the normalized form of a
URL that `IsAllowed` accepts: no record is registered from a disallowed URL. -/
theorem robots_enforcement (W : World) (cfg : Config) (raw : GoString) (parsed : URL)
    (p : GoString) (hparse : urlParse W raw = some parsed) (hmem : p ∈ cfg.Robots.disallowed)
    (hpre : p <+: parsed.Path) :
    cfg.Robots.IsAllowed W raw = false ∧
    (cfg.CrawlPage W raw).1 = cfg ∧
    ((cfg.CrawlPage W raw).2 = .overBudget ∨ (cfg.CrawlPage W raw).2 = .otherHost ∨
      (cfg.CrawlPage W raw).2 = .robotsDisallowed) ∧
    Task.step W cfg (.admitted raw) = some (cfg, .returning, []) ∧
    (cfg.Pages = [] → ∀ raws k, k ∈ (cfg.crawlAll W raws).Pages.keys →
      ∃ r ∈ raws, cfg.Robots.IsAllowed W r = true ∧ W.normalizeURL r = some k) ∧
    (cfg.Pages = [] → ∀ seed schedule k,
      k ∈ ((System.start cfg seed).run W schedule).cfg.Pages.keys →
      ∃ r, cfg.Robots.IsAllowed W r = true ∧ W.normalizeURL r = some k) := by
  have hr : cfg.Robots.IsAllowed W raw = false := by
    rw [IsAllowed_of_parsed W cfg.Robots raw parsed hparse, disallowLoop_eq_false]
    refine ⟨p, hmem, ?_⟩
    by_cases he : parsed.Path = []
    · rw [he] at hpre
      rw [if_pos he, List.prefix_nil.1 hpre]
      exact List.nil_prefix
    · rw [if_neg he]
      exact hpre
  refine ⟨hr, (CrawlPage_disallowed W cfg raw hr).1, ?_, step_admitted_disallowed W cfg raw hr,
    ?_, ?_⟩
  · unfold Config.CrawlPage
    by_cases hb : cfg.PagesLen ≥ cfg.MaxPages
    · simp [hb]
    · by_cases hh : parsed.Hostname ≠ cfg.BaseURL.Hostname
      · simp [hb, hparse, hh]
      · simp [hb, hparse, hh, hr]
  · intro hp raws k hk
    rcases crawlAll_keys W cfg raws k hk with h | h
    · rw [hp] at h
      cases h
    · exact h
  · intro hp seed schedule k hk
    rcases run_keys W cfg seed schedule k hk with h | h
    · rw [hp] at h
      cases h
    · exact h

/-- C7 as stated fails: with a budget of 2 pages and 2 slots, the two child tasks
of the seed page both pass the budget check while the ledger holds 1 record, and
both register: the ledger ends with 3 records. -/
theorem budget_exceeded :
    Example.config.Pages = [] ∧ Example.config.MaxPages = 2 ∧
    (((System.start Example.config Example.seed).run Example.world
      [0, 0, 0, 0, 0, 0, 0, 1, 2, 1, 2, 1, 2]).cfg.Pages.length : Int) = 3 := by
  decide

/-- C7, as the code has it: in every run that starts from an empty ledger with a
budget `N ≥ 0` and a channel of capacity `C ≥ 1`, under every interleaving, the
ledger never holds more than `N + (C - 1)` records, hence never more than `N`
when `C = 1`, and none when `N = 0`; a sequence of `CrawlPage` calls that run one
after the other never registers more than `N`. -/
theorem budget_bound (W : World) (cfg : Config) (seed : GoString) (schedule : List Nat)
    (hp : cfg.Pages = []) (hl : cfg.ConcurrencyControl.len = 0)
    (hC : 1 ≤ cfg.ConcurrencyControl.cap) (hN : 0 ≤ cfg.MaxPages) :
    (((System.start cfg seed).run W schedule).cfg.Pages.length : Int) ≤
      cfg.MaxPages + ((cfg.ConcurrencyControl.cap : Int) - 1) ∧
    (cfg.ConcurrencyControl.cap = 1 →
      (((System.start cfg seed).run W schedule).cfg.Pages.length : Int) ≤ cfg.MaxPages) ∧
    (cfg.MaxPages = 0 → ((System.start cfg seed).run W schedule).cfg.Pages.length = 0) ∧
    (∀ raws, ((cfg.crawlAll W raws).Pages.length : Int) ≤ cfg.MaxPages) := by
  obtain ⟨_, _, _, _, hzero, hpos⟩ := run_bounds W cfg seed schedule hp hl
  have hmain : (((System.start cfg seed).run W schedule).cfg.Pages.length : Int) ≤
      cfg.MaxPages + ((cfg.ConcurrencyControl.cap : Int) - 1) := by
    rcases lt_or_eq_of_le hN with h | h
    · have := hpos h
      omega
    · have := (hzero (le_of_eq h.symm)).1
      omega
  refine ⟨hmain, fun h1 => ?_, fun h0 => (hzero (le_of_eq h0)).1, fun raws => ?_⟩
  · rw [h1] at hmain
    simpa using hmain
  · have h := crawlAll_budget W cfg raws (by simp [hp])
    rwa [max_eq_left hN] at h

/-- C8: in every run of a configuration that `Configure` built with capacity `C`,
under every interleaving, the tasks between their slot acquisition and their slot
release are as many as the channel holds elements and at most `C`; so at most `C`
tasks execute their fetch at the same time. -/
theorem concurrency_bound (U : Unicode) (W : World) (rawBaseURL : GoString) (C : Nat)
    (maxPages rateLimit : Int) (userAgent : GoString) (jsonOutput : Bool)
    (apiKey aiProvider : GoString) (cfg : Config)
    (hcfg : Configure U W rawBaseURL (C : Int) maxPages rateLimit userAgent jsonOutput apiKey
      aiProvider = some (some cfg))
    (seed : GoString) (schedule : List Nat) :
    ((System.start cfg seed).run W schedule).holders ≤ C ∧
    ((System.start cfg seed).run W schedule).fetching ≤ C ∧
    ((System.start cfg seed).run W schedule).holders =
      ((System.start cfg seed).run W schedule).cfg.ConcurrencyControl.len ∧
    ((System.start cfg seed).run W schedule).cfg.ConcurrencyControl.cap = C := by
  obtain ⟨hp, hc, _, _⟩ := Configure_result U W rawBaseURL C maxPages rateLimit userAgent
    jsonOutput apiKey aiProvider cfg hcfg
  have hcap : cfg.ConcurrencyControl.cap = C := by rw [hc]; simp
  have hlen : cfg.ConcurrencyControl.len = 0 := by rw [hc]
  obtain ⟨h1, _, h3, h4, _, _⟩ := run_bounds W cfg seed schedule hp hlen
  rw [hcap] at h1 h4
  have hf := fetching_le_holders ((System.start cfg seed).run W schedule).tasks
  refine ⟨by omega, ?_, h3, h1⟩
  simp only [System.fetching, System.holders] at hf h3 ⊢
  omega

/-! ## The theorems at the example site -/

/-- C2 at three calls, the first and the third with the same URL. -/
theorem addPageVisits_dedup_witness :
    Example.config.Pages = [] ∧
    (Example.config.addPageVisits [str "a.test", str "a.test/b", str "a.test"]).2.length = 3 ∧
    (Example.config.addPageVisits [str "a.test", str "a.test/b", str "a.test"]).2[2]? =
      some (decide (str "a.test" ∉ [str "a.test", str "a.test/b", str "a.test"].take 2)) ∧
    ((Example.config.addPageVisits [str "a.test", str "a.test/b", str "a.test"]).1.Pages.lookup
      (str "a.test")).map PageData.LinkCount =
      some (([str "a.test", str "a.test/b", str "a.test"].count (str "a.test") : Nat) : Int) :=
  ⟨rfl,
   (addPageVisits_dedup Example.config [str "a.test", str "a.test/b", str "a.test"] rfl).1,
   (addPageVisits_dedup Example.config [str "a.test", str "a.test/b", str "a.test"] rfl).2.1
     2 (str "a.test") (by decide),
   (addPageVisits_dedup Example.config [str "a.test", str "a.test/b", str "a.test"] rfl).2.2.2.2.2
     (str "a.test") (by decide) (by decide)⟩

/-- C5 at the example site: the rule set is the one `parse` builds from the
site's robots.txt, the candidate is the link to `/admin/x`. -/
theorem robots_enforcement_witness :
    RobotsChecker.parse Unicode.caseless { disallowed := [], userAgent := str "Crawler" }
      Example.robotsTxt = some Example.config.Robots ∧
    urlParse Example.world (str "http://a.test/admin/x") =
      some { Scheme := str "http", Host := str "a.test", Path := str "/admin/x" } ∧
    str "/admin" ∈ Example.config.Robots.disallowed ∧
    str "/admin" <+: str "/admin/x" ∧
    (Example.config.CrawlPage Example.world (str "http://a.test/admin/x")).1 = Example.config :=
  ⟨by decide, by decide, by decide, by decide,
   (robots_enforcement Example.world Example.config (str "http://a.test/admin/x")
      { Scheme := str "http", Host := str "a.test", Path := str "/admin/x" } (str "/admin")
      (by decide) (by decide) (by decide)).2.1⟩

/-- C6 at the example site: the link to the other host. -/
theorem host_filter_witness :
    urlParse Example.world (str "http://other.test/") =
      some { Scheme := str "http", Host := str "other.test", Path := str "/" } ∧
    str "other.test" ≠ Example.config.BaseURL.Hostname ∧
    Example.config.CrawlPage Example.world (str "http://other.test/") =
      (Example.config, Exit.otherHost) :=
  ⟨by decide, by decide,
   (host_filter Example.world Example.config (str "http://other.test/")
      { Scheme := str "http", Host := str "other.test", Path := str "/" }
      (by decide) (by decide)).1⟩

/-- C7 at the example site, on the schedule that exceeds the budget by one. -/
theorem budget_bound_witness :
    Example.config.Pages = [] ∧ Example.config.ConcurrencyControl.len = 0 ∧
    1 ≤ Example.config.ConcurrencyControl.cap ∧ 0 ≤ Example.config.MaxPages ∧
    (((System.start Example.config Example.seed).run Example.world
      [0, 0, 0, 0, 0, 0, 0, 1, 2, 1, 2, 1, 2]).cfg.Pages.length : Int) ≤
      Example.config.MaxPages + ((Example.config.ConcurrencyControl.cap : Int) - 1) :=
  ⟨by decide, by decide, by decide, by decide,
   (budget_bound Example.world Example.config Example.seed [0, 0, 0, 0, 0, 0, 0, 1, 2, 1, 2, 1, 2]
      (by decide) (by decide) (by decide) (by decide)).1⟩

/-- C8 at the example site: `Configure` with capacity 2, and a schedule in which
two tasks hold a slot. -/
theorem concurrency_bound_witness :
    Configure Unicode.caseless Example.world Example.seed ((2 : Nat) : Int) 2 0 (str "Crawler")
      false [] (str "openai") = some (some Example.config) ∧
    ((System.start Example.config Example.seed).run Example.world
      [0, 0, 0, 0, 0, 0, 0, 1, 2, 1, 2]).holders ≤ 2 :=
  ⟨by decide,
   (concurrency_bound Unicode.caseless Example.world Example.seed 2 2 0 (str "Crawler") false []
      (str "openai") Example.config (by decide) Example.seed
      [0, 0, 0, 0, 0, 0, 0, 1, 2, 1, 2]).1⟩

/-! ## The attach block -/

theorem attachTo_fields (W : World) (analyzer : Option AIAnalyzer) (raw : GoString) (m : Metadata)
    (d : PageData) :
    (attachTo W analyzer raw m d).LinkCount = d.LinkCount ∧
    (attachTo W analyzer raw m d).Title = m.title ∧
    (attachTo W analyzer raw m d).Description = m.description ∧
    (attachTo W analyzer raw m d).Keywords = m.keywords ∧
    (attachTo W analyzer raw m d).Author = m.author ∧
    (attachTo W analyzer raw m d).Canonical = m.canonical ∧
    (attachTo W analyzer raw m d).Language = m.language ∧
    (attachTo W analyzer raw m d).Charset = m.charset ∧
    (attachTo W analyzer raw m d).OGImage = m.ogImage ∧
    (attachTo W analyzer raw m d).OGType = m.ogType ∧
    (attachTo W analyzer raw m d).OGURL = m.ogURL ∧
    (attachTo W analyzer raw m d).OGSiteName = m.ogSiteName ∧
    (attachTo W analyzer raw m d).TwitterCard = m.twitterCard ∧
    (attachTo W analyzer raw m d).TwitterSite = m.twitterSite ∧
    (attachTo W analyzer raw m d).TwitterImage = m.twitterImage := by
  unfold attachTo
  cases analyzer with
  | none => simp
  | some a =>
    simp only []
    split <;> simp

theorem attachTo_suggestions (W : World) (analyzer : Option AIAnalyzer) (raw : GoString)
    (m : Metadata) (d : PageData) :
    (attachTo W analyzer raw m d).Suggestions =
      match analyzer with
      | none => d.Suggestions
      | some a =>
        match a.AnalyzePage W raw m.title m.description with
        | none => d.Suggestions
        | some analysis => some analysis := by
  unfold attachTo
  cases analyzer with
  | none => rfl
  | some a =>
    simp only []
    split <;> simp_all

/-- C10: the attach block of `CrawlPage` leaves the configuration as it is when
the key is absent (no record is created).  When the key is present with record
`d` it replaces that record by one with the same `LinkCount` and the fourteen
extracted attributes; its `Suggestions` stay those of `d` when no analyzer is
configured or the content-suggestion call fails, and become the result when the
call succeeds.  In both cases the keys, the record under every other key and
every field of the configuration other than the ledger are unchanged. -/
theorem attach_contract (W : World) (cfg : Config) (raw k : GoString) (m : Metadata) :
    (cfg.Pages.lookup k = none → cfg.attach W raw k m = cfg) ∧
    (∀ d, cfg.Pages.lookup k = some d →
      (cfg.attach W raw k m).Pages.lookup k = some (attachTo W cfg.Analyzer raw m d) ∧
      (attachTo W cfg.Analyzer raw m d).LinkCount = d.LinkCount ∧
      (attachTo W cfg.Analyzer raw m d).Title = m.title ∧
      (attachTo W cfg.Analyzer raw m d).Description = m.description ∧
      (attachTo W cfg.Analyzer raw m d).Keywords = m.keywords ∧
      (attachTo W cfg.Analyzer raw m d).Author = m.author ∧
      (attachTo W cfg.Analyzer raw m d).Canonical = m.canonical ∧
      (attachTo W cfg.Analyzer raw m d).Language = m.language ∧
      (attachTo W cfg.Analyzer raw m d).Charset = m.charset ∧
      (attachTo W cfg.Analyzer raw m d).OGImage = m.ogImage ∧
      (attachTo W cfg.Analyzer raw m d).OGType = m.ogType ∧
      (attachTo W cfg.Analyzer raw m d).OGURL = m.ogURL ∧
      (attachTo W cfg.Analyzer raw m d).OGSiteName = m.ogSiteName ∧
      (attachTo W cfg.Analyzer raw m d).TwitterCard = m.twitterCard ∧
      (attachTo W cfg.Analyzer raw m d).TwitterSite = m.twitterSite ∧
      (attachTo W cfg.Analyzer raw m d).TwitterImage = m.twitterImage ∧
      (cfg.Analyzer = none → (attachTo W cfg.Analyzer raw m d).Suggestions = d.Suggestions) ∧
      (∀ a, cfg.Analyzer = some a → a.AnalyzePage W raw m.title m.description = none →
        (attachTo W cfg.Analyzer raw m d).Suggestions = d.Suggestions) ∧
      (∀ a analysis, cfg.Analyzer = some a →
        a.AnalyzePage W raw m.title m.description = some analysis →
        (attachTo W cfg.Analyzer raw m d).Suggestions = some analysis)) ∧
    (cfg.attach W raw k m).Pages.keys = cfg.Pages.keys ∧
    (cfg.attach W raw k m).Pages.length = cfg.Pages.length ∧
    (∀ k', k' ≠ k → (cfg.attach W raw k m).Pages.lookup k' = cfg.Pages.lookup k') ∧
    cfg.attach W raw k m = { cfg with Pages := (cfg.attach W raw k m).Pages } := by
  refine ⟨?_, ?_, attach_keys W cfg raw k m, attach_length W cfg raw k m, ?_,
    attach_frame W cfg raw k m⟩
  · intro h
    simp [Config.attach, h]
  · intro d hd
    obtain ⟨f0, f1, f2, f3, f4, f5, f6, f7, f8, f9, f10, f11, f12, f13, f14⟩ :=
      attachTo_fields W cfg.Analyzer raw m d
    have hs := attachTo_suggestions W cfg.Analyzer raw m d
    refine ⟨?_, f0, f1, f2, f3, f4, f5, f6, f7, f8, f9, f10, f11, f12, f13, f14, ?_, ?_, ?_⟩
    · simp [Config.attach, hd, PagesMap.lookup_modify_self]
    · intro ha
      rw [hs, ha]
    · intro a ha hcall
      rw [hs, ha]
      simp only [hcall]
    · intro a analysis ha hcall
      rw [hs, ha]
      simp only [hcall]
  · intro k' hk'
    unfold Config.attach
    cases cfg.Pages.lookup k with
    | none => rfl
    | some d => exact PagesMap.lookup_modify_other _ _ _ _ hk'

/-! ## robots.go: blocks -/

/-- C9 as stated fails: with a wildcard block and two blocks that name the
configured agent, the rule list holds the paths of all three blocks. -/
theorem parse_accumulates :
    RobotsChecker.parse Unicode.caseless { disallowed := [], userAgent := str "Crawler" }
      Example.threeBlocks =
      some { disallowed := [str "/a", str "/b", str "/c"], userAgent := str "Crawler" } := by
  decide

theorem parseLoop_plain_lines (U : Unicode) (a : GoString) (ls rest : List GoString) (m : Bool)
    (dis : List GoString) (h : ∀ l ∈ ls, isUserAgentLine U (cleanLine l) = false) :
    RobotsChecker.parseLoop U a (ls ++ rest) m dis =
      RobotsChecker.parseLoop U a rest m (dis ++ if m then blockRules U ls else []) := by
  induction ls generalizing dis with
  | nil => cases m <;> simp [blockRules]
  | cons l ls ih =>
    have hl := h l (List.mem_cons_self _ _)
    rw [List.cons_append, parseLoop_step]
    simp only [hl, Bool.false_eq_true, if_false]
    rw [ih _ (fun x hx => h x (List.mem_cons_of_mem _ hx))]
    congr 1
    cases m with
    | false => simp
    | true =>
      simp only [blockRules, List.filterMap_cons, Bool.and_true, if_true]
      split <;> simp_all

theorem parseLoop_blocks (U : Unicode) (a : GoString) (blocks : List (GoString × List GoString))
    (m : Bool) (dis : List GoString)
    (h : ∀ b ∈ blocks, isUserAgentLine U (cleanLine b.1) = true ∧
      ∀ l ∈ b.2, isUserAgentLine U (cleanLine l) = false) :
    RobotsChecker.parseLoop U a (blocks.flatMap fun b => b.1 :: b.2) m dis =
      some (dis ++ (blocks.filter (blockMatches U a)).flatMap fun b => blockRules U b.2) := by
  induction blocks generalizing m dis with
  | nil => simp [RobotsChecker.parseLoop]
  | cons b bs ih =>
    obtain ⟨hua, hrest⟩ := h b (List.mem_cons_self _ _)
    have hd := userAgentLine_not_disallow U _ hua
    rw [List.flatMap_cons, List.cons_append, parseLoop_step]
    simp only [hua, hd, if_true, Bool.false_and, Bool.false_eq_true, if_false, List.append_nil]
    rw [parseLoop_plain_lines U a b.2 _ _ _ hrest,
      ih _ _ (fun x hx => h x (List.mem_cons_of_mem _ hx))]
    by_cases hm : blockMatches U a b = true
    · have hm' : agentMatches U a (agentValue (cleanLine b.1)) = true := hm
      simp [List.filter_cons, hm, hm']
    · have hm' : agentMatches U a (agentValue (cleanLine b.1)) = false := by
        simpa [blockMatches] using hm
      simp [List.filter_cons, hm, hm']

/-- C9, as the code has it: for a robots.txt body whose lines are a preamble
without `user-agent:` line followed by blocks (a `user-agent:` line and the lines
up to the next one), `parse` appends, in file order, the `Disallow` paths of
every block whose `user-agent:` value is `*` or the configured agent up to case.
A wildcard block counts beside a block that names the agent, and a later block
for the same agent adds to an earlier one. -/
theorem parse_blocks (U : Unicode) (rc : RobotsChecker) (body : GoString)
    (preamble : List GoString) (blocks : List (GoString × List GoString))
    (hsplit : SplitLines body = preamble ++ blocks.flatMap fun b => b.1 :: b.2)
    (hpre : ∀ l ∈ preamble, isUserAgentLine U (cleanLine l) = false)
    (hblocks : ∀ b ∈ blocks, isUserAgentLine U (cleanLine b.1) = true ∧
      ∀ l ∈ b.2, isUserAgentLine U (cleanLine l) = false) :
    rc.parse U body =
      some { rc with disallowed := rc.disallowed ++
        (blocks.filter (blockMatches U rc.userAgent)).flatMap fun b => blockRules U b.2 } := by
  unfold RobotsChecker.parse
  rw [hsplit, parseLoop_plain_lines U rc.userAgent preamble _ false _ hpre,
    parseLoop_blocks U rc.userAgent blocks false _ hblocks]
  simp

/-- C9 at the body with a wildcard block and two blocks for the agent. -/
theorem parse_blocks_witness :
    SplitLines Example.threeBlocks = [] ++ Example.blocks.flatMap (fun b => b.1 :: b.2) ∧
    (Example.blocks.filter (blockMatches Unicode.caseless (str "Crawler"))).flatMap
      (fun b => blockRules Unicode.caseless b.2) = [str "/a", str "/b", str "/c"] ∧
    RobotsChecker.parse Unicode.caseless { disallowed := [], userAgent := str "Crawler" }
      Example.threeBlocks =
      some { disallowed := [str "/a", str "/b", str "/c"], userAgent := str "Crawler" } :=
  ⟨by decide, by decide,
   parse_blocks Unicode.caseless { disallowed := [], userAgent := str "Crawler" }
     Example.threeBlocks [] Example.blocks (by decide) (by decide) (by decide)⟩

/-! ## The task steps and the function body agree -/

/-- Run without interruption, the steps of a task from the budget check on give
the configuration and the child tasks of the function `CrawlPage`. -/
theorem runBody_eq_CrawlPage (W : World) (cfg : Config) (raw : GoString) :
    Task.runBody W 5 cfg (.admitted raw) =
      ((cfg.CrawlPage W raw).1, (cfg.CrawlPage W raw).2.children) := by
  unfold Config.CrawlPage
  simp only [Task.runBody, Task.step]
  by_cases hb : cfg.PagesLen ≥ cfg.MaxPages
  · simp [hb, Exit.children]
  · simp only [hb, if_false]
    cases hp : urlParse W raw with
    | none => simp [Exit.children]
    | some parsed =>
      by_cases hh : parsed.Hostname ≠ cfg.BaseURL.Hostname
      · simp [hh, Exit.children]
      · simp only [hh, if_false]
        by_cases hr : cfg.Robots.IsAllowed W raw = true
        · simp only [hr, Bool.not_true, Bool.false_eq_true, if_false]
          cases hn : W.normalizeURL raw with
          | none => simp [Exit.children]
          | some n =>
            simp only []
            by_cases hf : (cfg.addPageVisit n).2 = true
            · simp only [hf, Bool.not_true, Bool.false_eq_true, if_false]
              cases hg : W.getHTML raw with
              | none => simp [Exit.children]
              | some html =>
                simp only []
                cases hu : W.getURLsFromHTML html
                    ((cfg.addPageVisit n).1.attach W raw n (W.extractMetadata html)).BaseURL with
                | none => simp [Exit.children]
                | some next => simp [Exit.children]
            · simp [hf, Exit.children]
        · simp [hr, Exit.children]

/-! ## robots.go: the parser never panics -/

theorem parseLoop_returns (U : Unicode) (a : GoString) (lines : List GoString) (m : Bool)
    (dis : List GoString) : ∃ out, RobotsChecker.parseLoop U a lines m dis = some out := by
  induction lines generalizing m dis with
  | nil => exact ⟨dis, rfl⟩
  | cons line rest ih =>
    rw [parseLoop_step]
    exact ih _ _

/-- C14: `parse` is total.  Whenever the lower-cased line begins with
`user-agent:` the line itself has at least 11 bytes, and whenever it begins with
`disallow:` at least 9, whatever the case tables do to the length of the line;
so the slices `line[11:]` and `line[9:]` are within bounds, the loop returns a
rule list from every state and for every list of lines, and `parse` returns a
checker for every body. -/
theorem parse_total (U : Unicode) (rc : RobotsChecker) (body : GoString) :
    (∀ line : GoString, HasPrefix (ToLower U line) (str "user-agent:") = true →
      11 ≤ line.length ∧ sliceFrom line 11 = some (line.drop 11)) ∧
    (∀ line : GoString, HasPrefix (ToLower U line) (str "disallow:") = true →
      9 ≤ line.length ∧ sliceFrom line 9 = some (line.drop 9)) ∧
    (∀ (lines : List GoString) (m : Bool) (dis : List GoString),
      ∃ out, RobotsChecker.parseLoop U rc.userAgent lines m dis = some out) ∧
    (∃ out, rc.parse U body = some { disallowed := out, userAgent := rc.userAgent }) := by
  refine ⟨fun line h => ?_, fun line h => ?_, fun lines m dis => ?_, ?_⟩
  · have hl := userAgentLine_length U line h
    exact ⟨hl, sliceFrom_of_le line 11 hl⟩
  · have hl := disallowLine_length U line h
    exact ⟨hl, sliceFrom_of_le line 9 hl⟩
  · exact parseLoop_returns U rc.userAgent lines m dis
  · obtain ⟨out, h⟩ := parseLoop_returns U rc.userAgent (SplitLines body) false rc.disallowed
    exact ⟨out, by simp [RobotsChecker.parse, h]⟩

/-- Lines whose lower-casing changes their length, run through the parser: a
`disallow:` line spelled with `İ` is one byte longer than its lower case, an
invalid byte grows to three bytes, and the bare directives have no value. -/
theorem parse_length_changing :
    (ToLower Example.shortening (str "dİsallow:/x")).length + 1 = (str "dİsallow:/x").length ∧
    (ToLower Example.shortening [0xFF]).length = 3 ∧
    RobotsChecker.parse Example.shortening { disallowed := [], userAgent := str "Crawler" }
      (str "User-agent: *\ndİsallow:/x\nuser-agent:\ndisallow:\n" ++ [0xFF]) =
      some { disallowed := [str ":/x"], userAgent := str "Crawler" } := by
  decide

/-! ## The order of the report -/

theorem strLess_irrefl (s : GoString) : strLess s s = false := by
  induction s with
  | nil => rfl
  | cons a s ih => simp [strLess, ih]

theorem strLess_asymm (s t : GoString) (h : strLess s t = true) : strLess t s = false := by
  induction s generalizing t with
  | nil => cases t <;> simp_all [strLess]
  | cons a s ih =>
    cases t with
    | nil => simp [strLess] at h
    | cons b t =>
      simp only [strLess] at h ⊢
      by_cases h1 : a < b
      · have h2 : ¬ b < a := by omega
        simp [h2, h1]
      · by_cases h2 : b < a
        · simp [h1, h2] at h
        · simp only [h1, h2, if_false] at h ⊢
          exact ih t h

theorem strLess_trans (s t u : GoString) (h1 : strLess s t = true) (h2 : strLess t u = true) :
    strLess s u = true := by
  induction s generalizing t u with
  | nil =>
    cases t with
    | nil => simp [strLess] at h1
    | cons b t =>
      cases u with
      | nil => simp [strLess] at h2
      | cons c u => rfl
  | cons a s ih =>
    cases t with
    | nil => simp [strLess] at h1
    | cons b t =>
      cases u with
      | nil => simp [strLess] at h2
      | cons c u =>
        simp only [strLess] at h1 h2 ⊢
        by_cases hab : a < b
        · by_cases hbc : b < c
          · have : a < c := by omega
            simp [this]
          · by_cases hcb : c < b
            · simp [hbc, hcb] at h2
            · have : a < c := by omega
              simp [this]
        · by_cases hba : b < a
          · simp [hab, hba] at h1
          · simp only [hab, hba, if_false] at h1
            have hab' : a = b := by omega
            subst hab'
            by_cases hac : a < c
            · simp [hac]
            · by_cases hca : c < a
              · simp [hac, hca] at h2
              · simp only [hac, hca, if_false] at h2 ⊢
                exact ih t u h1 h2

theorem strLess_total (s t : GoString) (h : s ≠ t) :
    strLess s t = true ∨ strLess t s = true := by
  induction s generalizing t with
  | nil =>
    cases t with
    | nil => exact absurd rfl h
    | cons b t => exact Or.inl rfl
  | cons a s ih =>
    cases t with
    | nil => exact Or.inr rfl
    | cons b t =>
      simp only [strLess]
      by_cases hab : a < b
      · simp [hab]
      · by_cases hba : b < a
        · simp [hab, hba]
        · have hab' : a = b := by omega
          subst hab'
          simp only [hab, if_false]
          exact ih t (fun e => h (by rw [e]))

/-- The function `strLess` is the lexicographic order of the byte lists. -/
theorem strLess_iff_lt (s t : GoString) : strLess s t = true ↔ s < t := by
  induction s generalizing t with
  | nil =>
    cases t with
    | nil => simp [strLess]
    | cons b t =>
      simp only [strLess, true_iff]
      exact List.Lex.nil
  | cons a s ih =>
    cases t with
    | nil => simp [strLess]
    | cons b t =>
      simp only [strLess]
      by_cases hab : a < b
      · simp only [hab, if_true, true_iff]
        exact List.Lex.rel hab
      · by_cases hba : b < a
        · simp only [hab, hba, if_false, if_true, Bool.false_eq_true, false_iff]
          intro hlt
          cases hlt with
          | cons h => exact absurd hba (lt_irrefl _)
          | rel h => exact hab h
        · simp only [hab, hba, if_false, ih]
          have hab' : a = b := by omega
          subst hab'
          constructor
          · intro h
            exact List.Lex.cons h
          · intro hlt
            cases hlt with
            | cons h => exact h
            | rel h => exact absurd h hab

theorem lessPage_iff (a b : Page) : lessPage a b = true ↔ pageBefore a b := by
  unfold lessPage pageBefore
  by_cases h : a.Count = b.Count
  · simp [h]
  · simp [h]

theorem lessPage_asymm (a b : Page) (h : lessPage a b = true) : lessPage b a = false := by
  unfold lessPage at h ⊢
  by_cases hc : a.Count = b.Count
  · simp only [hc, if_true] at h
    simp only [hc, if_true]
    exact strLess_asymm _ _ h
  · have hc' : ¬ b.Count = a.Count := fun e => hc e.symm
    simp only [hc, if_false, decide_eq_true_eq] at h
    simp only [hc', if_false, decide_eq_false_iff_not]
    omega

theorem lessPage_trans (a b c : Page) (h1 : lessPage a b = true) (h2 : lessPage b c = true) :
    lessPage a c = true := by
  rw [lessPage_iff] at h1 h2 ⊢
  unfold pageBefore at h1 h2 ⊢
  rcases h1 with h1 | ⟨e1, l1⟩
  · rcases h2 with h2 | ⟨e2, _⟩
    · left; omega
    · left; omega
  · rcases h2 with h2 | ⟨e2, l2⟩
    · left; omega
    · right
      exact ⟨e1.trans e2, strLess_trans _ _ _ l1 l2⟩

theorem lessPage_total (a b : Page) (h : a.URL ≠ b.URL) :
    lessPage a b = true ∨ lessPage b a = true := by
  unfold lessPage
  by_cases hc : a.Count = b.Count
  · simp only [hc, if_true]
    exact strLess_total _ _ h
  · have hc' : ¬ b.Count = a.Count := fun e => hc e.symm
    simp only [hc, hc', if_false, decide_eq_true_eq]
    omega

/-! ## sort.Slice -/

theorem insertSorted_perm {α : Type} (less : α → α → Bool) (x : α) (l : List α) :
    (insertSorted less x l).Perm (x :: l) := by
  induction l with
  | nil => exact List.Perm.refl _
  | cons y ys ih =>
    simp only [insertSorted]
    split
    · exact List.Perm.refl _
    · exact (List.Perm.cons y ih).trans (List.Perm.swap x y ys)

theorem sortSlice_perm {α : Type} (less : α → α → Bool) (l : List α) :
    (sortSlice less l).Perm l := by
  induction l with
  | nil => exact List.Perm.refl _
  | cons x xs ih =>
    simp only [sortSlice]
    exact (insertSorted_perm less x _).trans (List.Perm.cons x ih)

theorem insertSorted_pairwise {α : Type} (less : α → α → Bool)
    (htrans : ∀ a b c, less a b = true → less b c = true → less a c = true) (x : α)
    (l : List α) (htot : ∀ y ∈ l, less x y = true ∨ less y x = true)
    (hs : l.Pairwise fun a b => less a b = true) :
    (insertSorted less x l).Pairwise fun a b => less a b = true := by
  induction l with
  | nil => simp [insertSorted]
  | cons y ys ih =>
    obtain ⟨hy, hys⟩ := List.pairwise_cons.1 hs
    simp only [insertSorted]
    by_cases hxy : less x y = true
    · rw [if_pos hxy]
      refine List.pairwise_cons.2 ⟨fun z hz => ?_, hs⟩
      rcases List.mem_cons.1 hz with rfl | hz
      · exact hxy
      · exact htrans _ _ _ hxy (hy z hz)
    · rw [if_neg hxy]
      have hyx : less y x = true := by
        rcases htot y (List.mem_cons_self _ _) with h | h
        · exact absurd h hxy
        · exact h
      refine List.pairwise_cons.2 ⟨fun z hz => ?_, ih (fun z hz => htot z (List.mem_cons_of_mem _ hz)) hys⟩
      rcases List.mem_cons.1 ((insertSorted_perm less x ys).mem_iff.1 hz) with rfl | hz
      · exact hyx
      · exact hy z hz

theorem sortSlice_pairwise {α : Type} (less : α → α → Bool)
    (htrans : ∀ a b c, less a b = true → less b c = true → less a c = true) (l : List α)
    (htot : l.Pairwise fun a b => less a b = true ∨ less b a = true) :
    (sortSlice less l).Pairwise fun a b => less a b = true := by
  induction l with
  | nil => simp [sortSlice]
  | cons x xs ih =>
    obtain ⟨hx, hxs⟩ := List.pairwise_cons.1 htot
    simp only [sortSlice]
    exact insertSorted_pairwise less htrans x _
      (fun y hy => hx y ((sortSlice_perm less xs).mem_iff.1 hy)) (ih hxs)

/-- With a strict order that compares every two elements of the slice, the
contract of `sort.Slice` leaves one result only: every arrangement of the
elements in which no element is less than an earlier one is the list `sortSlice`
computes. -/
theorem sortSlice_unique {α : Type} (less : α → α → Bool)
    (hasymm : ∀ a b, less a b = true → less b a = false)
    (htrans : ∀ a b c, less a b = true → less b c = true → less a c = true) (l out : List α)
    (htot : l.Pairwise fun a b => less a b = true ∨ less b a = true) (hperm : out.Perm l)
    (hsorted : out.Pairwise fun a b => less b a = false) : out = sortSlice less l := by
  have htot' : out.Pairwise fun a b => less a b = true ∨ less b a = true :=
    (List.Perm.pairwise_iff (fun h => h.symm) hperm).2 htot
  have hstrict : out.Pairwise fun a b => less a b = true := by
    refine List.Pairwise.imp ?_ (hsorted.and htot')
    rintro a b ⟨h1, h2 | h2⟩
    · exact h2
    · rw [h1] at h2
      cases h2
  haveI : IsAntisymm α (fun a b => less a b = true) :=
    ⟨fun a b h1 h2 => by rw [hasymm a b h1] at h2; cases h2⟩
  exact List.eq_of_perm_of_sorted (hperm.trans (sortSlice_perm less l).symm) hstrict
    (sortSlice_pairwise less htrans l htot)

/-! ## sortPages -/

theorem appendPages_eq (m : List (GoString × PageData)) (acc : List Page) :
    appendPages m acc = acc ++ m.map fun e => Page.ofEntry e.1 e.2 := by
  induction m generalizing acc with
  | nil => simp [appendPages]
  | cons e rest ih =>
    obtain ⟨url, data⟩ := e
    simp [appendPages, ih]

theorem sortPages_eq (pages : Option PagesMap) :
    sortPages pages =
      some (sortSlice lessPage ((pages.getD []).map fun e => Page.ofEntry e.1 e.2)) := by
  cases pages with
  | none => rfl
  | some m => simp [sortPages, appendPages_eq]

theorem pages_comparable (m : PagesMap) (h : m.WF) :
    (m.map fun e => Page.ofEntry e.1 e.2).Pairwise
      fun a b => lessPage a b = true ∨ lessPage b a = true := by
  unfold PagesMap.WF PagesMap.keys List.Nodup at h
  rw [List.pairwise_map] at h ⊢
  exact h.imp fun hne => lessPage_total _ _ hne

theorem PagesMap.mem_iff_lookup (m : PagesMap) (h : m.WF) (k : GoString) (d : PageData) :
    (k, d) ∈ m ↔ m.lookup k = some d := by
  induction m with
  | nil => simp [PagesMap.lookup]
  | cons e rest ih =>
    obtain ⟨k', v⟩ := e
    unfold PagesMap.WF PagesMap.keys at h ih
    simp only [List.map_cons, List.nodup_cons] at h
    by_cases hk : k' = k
    · subst hk
      simp only [PagesMap.lookup, if_true, List.mem_cons, Prod.mk.injEq, true_and,
        Option.some.injEq]
      constructor
      · rintro (h1 | h1)
        · exact h1.symm
        · exact absurd (List.mem_map_of_mem Prod.fst h1) h.1
      · intro h1
        exact Or.inl h1.symm
    · have hk' : ¬ k = k' := fun e => hk e.symm
      simp only [PagesMap.lookup, hk, if_false, List.mem_cons, Prod.mk.injEq, hk', false_and,
        false_or]
      exact ih h.2

theorem sortPages_sorted (pages : Option PagesMap) (hwf : (pages.getD []).WF) :
    (sortSlice lessPage ((pages.getD []).map fun e => Page.ofEntry e.1 e.2)).Pairwise
      pageBefore := by
  have h := sortSlice_pairwise lessPage lessPage_trans _ (pages_comparable _ hwf)
  exact h.imp fun hab => (lessPage_iff _ _).1 hab

/-- C12: for every ledger map, the nil and the empty one included, `sortPages`
returns a list in which every element stands before every later one in the order
"count descending, then URL ascending"; in particular every two adjacent elements
`p`, `q` have `p.Count > q.Count`, or `p.Count = q.Count` and `p.URL < q.URL`. -/
theorem sortPages_ordered (pages : Option PagesMap) (hwf : (pages.getD []).WF) :
    ∃ out, sortPages pages = some out ∧
      out.Pairwise pageBefore ∧
      out.Chain' pageBefore ∧
      (∀ i p q, out[i]? = some p → out[i + 1]? = some q →
        p.Count > q.Count ∨ (p.Count = q.Count ∧ p.URL < q.URL)) := by
  have hs := sortPages_sorted pages hwf
  refine ⟨_, sortPages_eq pages, hs, hs.chain', fun i p q hp hq => ?_⟩
  obtain ⟨hi, hpi⟩ := List.getElem?_eq_some_iff.1 hp
  obtain ⟨hj, hqj⟩ := List.getElem?_eq_some_iff.1 hq
  have h := List.pairwise_iff_getElem.1 hs i (i + 1) hi hj (Nat.lt_succ_self i)
  rw [hpi, hqj] at h
  rcases h with h | ⟨h1, h2⟩
  · exact Or.inl h
  · exact Or.inr ⟨h1, (strLess_iff_lt _ _).1 h2⟩

/-- C12 at the ledger of the test case "order count then alphabetize". -/
theorem sortPages_ordered_witness :
    (Example.ledger).keys.Nodup ∧
    (sortPages (some Example.ledger)).map (fun out => out.map fun p => (p.URL, p.Count)) =
      some [(str "e", 3), (str "c", 2), (str "d", 2), (str "a", 1), (str "b", 1)] ∧
    ∃ out, sortPages (some Example.ledger) = some out ∧ out.Pairwise pageBefore ∧
      out.Chain' pageBefore ∧
      (∀ i p q, out[i]? = some p → out[i + 1]? = some q →
        p.Count > q.Count ∨ (p.Count = q.Count ∧ p.URL < q.URL)) :=
  ⟨by decide, by decide,
   sortPages_ordered (some Example.ledger) (by show Example.ledger.keys.Nodup; decide)⟩

theorem sortPages_order_independent (m m' : PagesMap) (hwf : m.WF) (hperm : m'.Perm m) :
    sortPages (some m') = sortPages (some m) := by
  rw [sortPages_eq, sortPages_eq]
  simp only [Option.getD_some, Option.some.injEq]
  have hwf' : m'.WF := by
    unfold PagesMap.WF PagesMap.keys at hwf ⊢
    exact (hperm.map Prod.fst).nodup_iff.2 hwf
  have hsorted := sortSlice_pairwise lessPage lessPage_trans _ (pages_comparable m' hwf')
  exact sortSlice_unique lessPage lessPage_asymm lessPage_trans _ _ (pages_comparable m hwf)
    ((sortSlice_perm lessPage _).trans (hperm.map _))
    (hsorted.imp fun hab => lessPage_asymm _ _ hab)

/-- C13: for every ledger map `sortPages` returns a non-nil list that holds
exactly the pages of the entries: it is a rearrangement of the list with one
`Page` per entry, as long as the map has keys, the URLs of its pages are the
keys, each exactly once, every page of the result carries the URL of a key and the fields of
the record under it (`Count` the `LinkCount`, every metadata field and
`Suggestions` copied).  For the nil and for the empty map the result is the empty
non-nil list.  The result does not depend on the iteration order of the map, and
it is the only arrangement of these pages in which no page is less than an
earlier one. -/
theorem sortPages_entries (pages : Option PagesMap) (hwf : (pages.getD []).WF) :
    ∃ out, sortPages pages = some out ∧
      out.Perm ((pages.getD []).map fun e => Page.ofEntry e.1 e.2) ∧
      out.length = (pages.getD []).keys.length ∧
      (out.map Page.URL).Perm (pages.getD []).keys ∧ (out.map Page.URL).Nodup ∧
      (∀ p ∈ out, p.URL ∈ (pages.getD []).keys ∧
        ∃ d, (pages.getD []).lookup p.URL = some d ∧ p = Page.ofEntry p.URL d) ∧
      (∀ k d, (pages.getD []).lookup k = some d → Page.ofEntry k d ∈ out) ∧
      (∀ k d, (Page.ofEntry k d).URL = k ∧ (Page.ofEntry k d).Count = d.LinkCount ∧
        (Page.ofEntry k d).Title = d.Title ∧ (Page.ofEntry k d).Description = d.Description ∧
        (Page.ofEntry k d).Keywords = d.Keywords ∧ (Page.ofEntry k d).Author = d.Author ∧
        (Page.ofEntry k d).Canonical = d.Canonical ∧ (Page.ofEntry k d).Language = d.Language ∧
        (Page.ofEntry k d).Charset = d.Charset ∧ (Page.ofEntry k d).OGImage = d.OGImage ∧
        (Page.ofEntry k d).OGType = d.OGType ∧ (Page.ofEntry k d).OGURL = d.OGURL ∧
        (Page.ofEntry k d).OGSiteName = d.OGSiteName ∧
        (Page.ofEntry k d).TwitterCard = d.TwitterCard ∧
        (Page.ofEntry k d).TwitterSite = d.TwitterSite ∧
        (Page.ofEntry k d).TwitterImage = d.TwitterImage ∧
        (Page.ofEntry k d).Suggestions = d.Suggestions) ∧
      sortPages none = some [] ∧ sortPages (some []) = some [] ∧
      (∀ m', m'.Perm (pages.getD []) → sortPages (some m') = some out) ∧
      (∀ out', out'.Perm ((pages.getD []).map fun e => Page.ofEntry e.1 e.2) →
        (out'.Pairwise fun a b => lessPage b a = false) → out' = out) := by
  have hperm := sortSlice_perm lessPage ((pages.getD []).map fun e => Page.ofEntry e.1 e.2)
  have hurl : ((pages.getD []).map fun e => Page.ofEntry e.1 e.2).map Page.URL =
      (pages.getD []).keys := by
    simp [PagesMap.keys, Page.ofEntry, List.map_map, Function.comp_def]
  have hurls : (List.map Page.URL (sortSlice lessPage
      ((pages.getD []).map fun e => Page.ofEntry e.1 e.2))).Perm (pages.getD []).keys := by
    rw [← hurl]
    exact hperm.map Page.URL
  refine ⟨_, sortPages_eq pages, hperm, ?_, hurls, hurls.nodup_iff.2 hwf, ?_, ?_, ?_, rfl, rfl,
    ?_, ?_⟩
  · rw [hperm.length_eq]
    simp [PagesMap.keys]
  · intro p hp
    obtain ⟨e, he, rfl⟩ := List.mem_map.1 (hperm.mem_iff.1 hp)
    obtain ⟨k, d⟩ := e
    refine ⟨List.mem_map_of_mem Prod.fst he, d, ?_, rfl⟩
    exact (PagesMap.mem_iff_lookup _ hwf k d).1 he
  · intro k d hl
    refine hperm.mem_iff.2 (List.mem_map.2 ⟨(k, d), ?_, rfl⟩)
    exact (PagesMap.mem_iff_lookup _ hwf k d).2 hl
  · intro k d
    exact ⟨rfl, rfl, rfl, rfl, rfl, rfl, rfl, rfl, rfl, rfl, rfl, rfl, rfl, rfl, rfl, rfl, rfl⟩
  · intro m' hm'
    rw [sortPages_order_independent _ m' hwf hm', sortPages_eq]
    rfl
  · intro out' hp' hs'
    exact sortSlice_unique lessPage lessPage_asymm lessPage_trans _ _
      (pages_comparable _ hwf) hp' hs'

/-- C13 at the ledger of the test case "order count then alphabetize", and at the
same entries in another iteration order. -/
theorem sortPages_entries_witness :
    (Example.ledger).keys.Nodup ∧
    sortPages (some Example.ledger.reverse) = sortPages (some Example.ledger) ∧
    ∃ out, sortPages (some Example.ledger) = some out ∧
      out.Perm (Example.ledger.map fun e => Page.ofEntry e.1 e.2) ∧
      out.length = Example.ledger.keys.length :=
  ⟨by decide, by decide,
   (sortPages_entries (some Example.ledger) (by show Example.ledger.keys.Nodup; decide)).imp
     fun _ h => ⟨h.1, h.2.1, h.2.2.1⟩⟩

/-! ## main.go -/

theorem Configure_error_iff (U : Unicode) (W : World) (rawBaseURL : GoString)
    (maxConcurrency maxPages rateLimit : Int) (userAgent : GoString) (jsonOutput : Bool)
    (apiKey aiProvider : GoString) :
    Configure U W rawBaseURL maxConcurrency maxPages rateLimit userAgent jsonOutput apiKey
      aiProvider = some none ↔ urlParse W rawBaseURL = none := by
  unfold Configure
  cases urlParse W rawBaseURL with
  | none => simp
  | some baseURL =>
    simp only []
    split
    · simp
    · split <;> simp

/-- The two exits of `main` before `Configure`: without a URL, and with
`-analyze` but without an API key, the process ends through `os.Exit(1)`. -/
theorem main_exits_one (U : Unicode) (W : World) (getenv : GoString → GoString)
    (scanInt : GoString → Option Int) (flags : Flags) (args : List GoString) :
    ((positionalFallback scanInt flags args).url = [] →
      main U W getenv scanInt flags args =
        { status := 1, printed := [.usage], task := none, report := false }) ∧
    ((positionalFallback scanInt flags args).url ≠ [] →
      (positionalFallback scanInt flags args).analyze = true →
      (chooseApiKey getenv (positionalFallback scanInt flags args).aiProvider).1 = [] →
      main U W getenv scanInt flags args =
        { status := 1, printed := [.apiKeyRequired], task := none, report := false }) := by
  refine ⟨fun h => ?_, fun h ha hk => ?_⟩
  · simp [main, h]
  · simp [main, h, ha, hk]

/-- C11, what the code does: when the run reaches `Configure` and `url.Parse`
rejects the seed URL, `main` prints the configure message, starts no `CrawlPage`
task and emits no report, and then returns: the exit status of the process is 0,
where the exits before it use `os.Exit(1)`. -/
theorem main_configure_error (U : Unicode) (W : World) (getenv : GoString → GoString)
    (scanInt : GoString → Option Int) (flags : Flags) (args : List GoString)
    (hurl : (positionalFallback scanInt flags args).url ≠ [])
    (hkey : (positionalFallback scanInt flags args).analyze = true →
      (chooseApiKey getenv (positionalFallback scanInt flags args).aiProvider).1 ≠ [])
    (hparse : urlParse W (positionalFallback scanInt flags args).url = none) :
    main U W getenv scanInt flags args =
      { status := 0, printed := [.configureError], task := none, report := false } := by
  have hc := fun mc mp rl ua js ak ap =>
    (Configure_error_iff U W (positionalFallback scanInt flags args).url mc mp rl ua js ak ap).2
      hparse
  by_cases ha : (positionalFallback scanInt flags args).analyze = true
  · have hk := hkey ha
    simp [main, hurl, ha, hk, hc]
  · simp only [Bool.not_eq_true] at ha
    simp [main, hurl, ha, hc]

/-- C11 at the example site: the seed URL has a line feed in its path, which
`url.Parse` rejects; `main` ends with exit status 0. -/
theorem main_configure_error_witness :
    urlParse Example.world (str "http://a.test/a\nb") = none ∧
    main Unicode.caseless Example.world (fun _ => []) (fun _ => none)
      (Example.flags (str "http://a.test/a\nb")) [] =
      { status := 0, printed := [.configureError], task := none, report := false } ∧
    (main Unicode.caseless Example.world (fun _ => []) (fun _ => none)
      (Example.flags (str "http://a.test/a\nb")) []).status = 0 ∧
    (main Unicode.caseless Example.world (fun _ => []) (fun _ => none)
      (Example.flags []) []).status = 1 :=
  ⟨by decide,
   main_configure_error Unicode.caseless Example.world (fun _ => []) (fun _ => none)
     (Example.flags (str "http://a.test/a\nb")) [] (by decide) (by decide) (by decide),
   by decide, by decide⟩

/-! ## robots.go against the specification: ASCII text -/

theorem IsASCII.of_sublist {s t : GoString} (h : IsASCII s) (hs : t.Sublist s) : IsASCII t :=
  fun b hb => h b (hs.subset hb)

theorem IsASCII.tail {b : Nat} {s : GoString} (h : IsASCII (b :: s)) : IsASCII s :=
  fun x hx => h x (List.mem_cons_of_mem _ hx)

theorem SplitLines_ascii (body : GoString) (h : IsASCII body) :
    ∀ l ∈ SplitLines body, IsASCII l := by
  induction body with
  | nil =>
    intro l hl
    simp only [SplitLines, List.mem_singleton] at hl
    subst hl
    intro b hb
    cases hb
  | cons a s ih =>
    have ih' := ih h.tail
    intro l hl
    simp only [SplitLines] at hl
    split at hl
    · rcases List.mem_cons.1 hl with rfl | hl
      · intro b hb
        cases hb
      · exact ih' l hl
    · split at hl
      · rename_i l0 ls heq
        rcases List.mem_cons.1 hl with rfl | hl
        · intro b hb
          rcases List.mem_cons.1 hb with rfl | hb
          · exact h b (List.mem_cons_self _ _)
          · exact ih' l0 (by rw [heq]; exact List.mem_cons_self _ _) b hb
        · exact ih' l (by rw [heq]; exact List.mem_cons_of_mem _ hl)
      · simp only [List.mem_singleton] at hl
        subst hl
        intro b hb
        simp only [List.mem_singleton] at hb
        subst hb
        exact h b (List.mem_cons_self _ _)

theorem IsSpace_ascii (b : Nat) (h : b < 0x80) : IsSpace b = Spec.isBlank b := by
  have h1 : b ≤ 0xFF := by omega
  have h2 : ¬ b = 0x85 := by omega
  have h3 : ¬ b = 0xA0 := by omega
  simp only [IsSpace, h1, if_true, Spec.isBlank, h2, h3, or_false]
  rw [Bool.eq_iff_iff]
  simp only [decide_eq_true_eq, Bool.or_eq_true, beq_iff_eq]
  constructor
  · rintro (h | h | h | h | h | h) <;> simp [h]
  · rintro (((((h | h) | h) | h) | h) | h) <;> simp [h]

theorem DecodeRune_ascii (b : Nat) (rest : GoString) (h : b < 0x80) :
    DecodeRune (b :: rest) = (b, 1) := by
  simp [DecodeRune, RuneSelf, h]

theorem trimLeftAux_ascii (n : Nat) (s : GoString) (h : IsASCII s) (hn : s.length ≤ n) :
    trimLeftAux n s = s.dropWhile Spec.isBlank := by
  induction n generalizing s with
  | zero =>
    have : s = [] := List.length_eq_zero.1 (by omega)
    subst this
    rfl
  | succ n ih =>
    cases s with
    | nil => rfl
    | cons b rest =>
      have hb : b < 0x80 := h b (List.mem_cons_self _ _)
      simp only [trimLeftAux, DecodeRune_ascii b rest hb, IsSpace_ascii b hb, List.drop_succ_cons,
        List.drop_zero, List.dropWhile_cons]
      by_cases hsp : Spec.isBlank b = true
      · simp only [hsp, if_true]
        exact ih rest h.tail (by simpa using hn)
      · simp [hsp]

theorem DecodeLastRune_ascii (t : GoString) (b : Nat) (h : b < 0x80) :
    DecodeLastRune (t ++ [b]) = (b, 1) := by
  have hlast : (t ++ [b]).getD ((t ++ [b]).length - 1) 0 = b := by
    simp [List.getD_eq_getElem?_getD]
  simp only [DecodeLastRune, hlast]
  simp [RuneSelf, h]

theorem take_succ_ascii (t : GoString) (i : Nat) (hi : i < t.length) :
    t.take (i + 1) = t.take i ++ [t.getD i 0] := by
  rw [List.take_succ, List.getD_eq_getElem?_getD, List.getElem?_eq_getElem hi]
  rfl

theorem lastIndexNotSpace_ascii (t : GoString) (h : IsASCII t) (fuel i : Nat) (hf : i ≤ fuel)
    (hi : i ≤ t.length) :
    (match lastIndexNotSpace fuel t i with
      | some j =>
        if RuneSelf ≤ t.getD j 0 then t.take (j + (DecodeRune (t.drop j)).2) else t.take (j + 1)
      | none => []) = ((t.take i).reverse.dropWhile Spec.isBlank).reverse := by
  induction fuel generalizing i with
  | zero =>
    have : i = 0 := by omega
    subst this
    simp [lastIndexNotSpace]
  | succ n ih =>
    cases i with
    | zero => simp [lastIndexNotSpace]
    | succ i =>
      have hlt : i < t.length := by omega
      have hb : t.getD i 0 < 0x80 := by
        rw [List.getD_eq_getElem?_getD, List.getElem?_eq_getElem hlt]
        exact h _ (List.getElem_mem _)
      have htake := take_succ_ascii t i hlt
      simp only [lastIndexNotSpace, Nat.succ_ne_zero, if_false, htake,
        DecodeLastRune_ascii _ _ hb, IsSpace_ascii _ hb, List.reverse_append,
        List.reverse_singleton, List.singleton_append, List.dropWhile_cons,
        Nat.add_sub_cancel]
      by_cases hsp : Spec.isBlank (t.getD i 0) = true
      · simp only [hsp, if_true]
        exact ih i (by omega) (by omega)
      · simp only [hsp, Bool.false_eq_true, if_false]
        have hr : ¬ RuneSelf ≤ t.getD i 0 := by unfold RuneSelf; omega
        simp only [hr, if_false, htake]
        simp

theorem trimRight_ascii (t : GoString) (h : IsASCII t) :
    trimRight t = (t.reverse.dropWhile Spec.isBlank).reverse := by
  have := lastIndexNotSpace_ascii t h t.length t.length (le_refl _) (le_refl _)
  rw [List.take_length] at this
  rw [← this]
  unfold trimRight
  cases lastIndexNotSpace t.length t t.length <;> rfl

theorem TrimSpace_ascii (s : GoString) (h : IsASCII s) : TrimSpace s = Spec.trim s := by
  unfold TrimSpace Spec.trim
  rw [trimLeftAux_ascii _ s h (le_refl _)]
  exact trimRight_ascii _ (h.of_sublist (List.dropWhile_sublist _))

theorem TrimSpace_ascii_sub (s : GoString) (h : IsASCII s) : IsASCII (TrimSpace s) := by
  rw [TrimSpace_ascii s h]
  unfold Spec.trim
  intro b hb
  rw [List.mem_reverse] at hb
  have h1 := (List.dropWhile_sublist Spec.isBlank).subset hb
  rw [List.mem_reverse] at h1
  exact h b ((List.dropWhile_sublist Spec.isBlank).subset h1)

theorem cut_eq_takeWhile (t : GoString) (c : Nat) :
    (match IndexByte t c with
      | some idx => t.take idx
      | none => t) = t.takeWhile fun b => b != c := by
  induction t with
  | nil => rfl
  | cons a t ih =>
    by_cases hac : a = c
    · subst hac
      simp [IndexByte]
    · simp only [IndexByte, hac, if_false, List.takeWhile_cons, bne_iff_ne, ne_eq,
        not_false_eq_true, decide_True, if_true]
      cases hi : IndexByte t c with
      | none =>
        rw [hi] at ih
        simp only [Option.map_none']
        rw [← ih]
      | some idx =>
        rw [hi] at ih
        simp only [Option.map_some', List.take_succ_cons]
        rw [← ih]

theorem cleanLine_ascii (line : GoString) (h : IsASCII line) :
    cleanLine line = Spec.clean line ∧ IsASCII (cleanLine line) := by
  have h1 : cleanLine line = (TrimSpace line).takeWhile fun b => b != 0x23 :=
    cut_eq_takeWhile (TrimSpace line) 0x23
  refine ⟨?_, ?_⟩
  · rw [h1, TrimSpace_ascii line h]
    rfl
  · rw [h1]
    exact (TrimSpace_ascii_sub line h).of_sublist (List.takeWhile_sublist _)

theorem ToLower_ascii (U : Unicode) (s : GoString) (h : IsASCII s) :
    ToLower U s = s.map asciiLower := by
  have hall : (s.all fun b => decide (b < RuneSelf)) = true := by
    rw [List.all_eq_true]
    intro b hb
    simpa [RuneSelf] using h b hb
  simp [ToLower, hall]

theorem asciiLower_eq_colon (b : Nat) : asciiLower b = 0x3A ↔ b = 0x3A := by
  unfold asciiLower
  split <;> omega

/-- On ASCII text, the prefix test of the code on the lowered line is the test of
the specification on the text before the first colon. -/
theorem prefix_iff_name (n s : GoString) (hn : 0x3A ∉ n) :
    HasPrefix (s.map asciiLower) (n ++ [0x3A]) = true ↔
      (0x3A ∈ s ∧ (s.takeWhile fun b => b != 0x3A).map asciiLower = n) := by
  induction n generalizing s with
  | nil =>
    cases s with
    | nil => simp [HasPrefix]
    | cons b s =>
      simp only [List.map_cons, List.nil_append, HasPrefix, Bool.and_true, decide_eq_true_eq,
        asciiLower_eq_colon, List.mem_cons, List.takeWhile_cons, bne_iff_ne, ne_eq]
      by_cases hb : b = 0x3A
      · simp [hb]
      · have hb' : ¬ 0x3A = b := fun e => hb e.symm
        simp [hb, hb']
  | cons c n ih =>
    have hc : ¬ c = 0x3A := fun e => hn (e ▸ List.mem_cons_self _ _)
    have hn' : 0x3A ∉ n := fun e => hn (List.mem_cons_of_mem _ e)
    cases s with
    | nil => simp [HasPrefix]
    | cons b s =>
      have ih' : HasPrefix (s.map asciiLower) (n.append [0x3A]) = true ↔
          (0x3A ∈ s ∧ (s.takeWhile fun b => b != 0x3A).map asciiLower = n) := ih s hn'
      simp only [List.map_cons, List.cons_append, HasPrefix, Bool.and_eq_true, decide_eq_true_eq,
        List.mem_cons, List.takeWhile_cons, bne_iff_ne, ne_eq]
      by_cases hb : b = 0x3A
      · subst hb
        have h1 : ¬ asciiLower 0x3A = c := by
          rw [show asciiLower 0x3A = 0x3A from rfl]
          exact fun e => hc e.symm
        simp [h1]
      · have hb' : ¬ 0x3A = b := fun e => hb e.symm
        simp only [hb, hb', not_false_eq_true, decide_True, if_true, List.map_cons,
          List.cons.injEq, false_or]
        rw [ih']
        tauto

theorem drop_after_colon (s : GoString) (k : Nat)
    (h : (s.takeWhile fun b => b != 0x3A).length = k) :
    (s.dropWhile fun b => b != 0x3A).drop 1 = s.drop (k + 1) := by
  have hs := List.takeWhile_append_dropWhile (fun b => b != 0x3A) s
  have hd : s.drop k = s.dropWhile fun b => b != 0x3A := by
    conv_lhs => rw [← hs]
    rw [← h, List.drop_left]
  rw [← hd, List.drop_drop]

theorem str_userAgent_name : str "user-agent:" = str "user-agent" ++ [0x3A] := by decide

theorem str_disallow_name : str "disallow:" = str "disallow" ++ [0x3A] := by decide

/-- On an ASCII line the directive of the specification and the test and slice of
the code are the same, for `user-agent`. -/
theorem valueOf_userAgent_ascii (U : Unicode) (c : GoString) (h : IsASCII c) :
    Spec.valueOf U (str "user-agent") c =
      if isUserAgentLine U c then some (agentValue c) else none := by
  have hname : IsASCII (c.takeWhile fun b => b != 0x3A) := h.of_sublist (List.takeWhile_sublist _)
  have hiff := prefix_iff_name (str "user-agent") c (by decide)
  unfold Spec.valueOf isUserAgentLine
  rw [ToLower_ascii U _ hname, ToLower_ascii U c h, str_userAgent_name]
  by_cases hp : HasPrefix (c.map asciiLower) (str "user-agent" ++ [0x3A]) = true
  · obtain ⟨h1, h2⟩ := hiff.1 hp
    have hlen : (c.takeWhile fun b => b != 0x3A).length = 10 := by
      have := congrArg List.length h2
      rw [List.length_map] at this
      rw [this]
      decide
    rw [if_pos ⟨h1, h2⟩, if_pos hp, drop_after_colon c 10 hlen]
    unfold agentValue
    rw [TrimSpace_ascii _ (h.of_sublist (List.drop_sublist _ _))]
  · have hq : ¬ (0x3A ∈ c ∧ (c.takeWhile fun b => b != 0x3A).map asciiLower = str "user-agent") :=
      fun e => hp (hiff.2 e)
    rw [if_neg hq, if_neg hp]

/-- On an ASCII line the directive of the specification and the test and slice of
the code are the same, for `disallow`. -/
theorem valueOf_disallow_ascii (U : Unicode) (c : GoString) (h : IsASCII c) :
    Spec.valueOf U (str "disallow") c =
      if isDisallowLine U c then some (disallowValue c) else none := by
  have hname : IsASCII (c.takeWhile fun b => b != 0x3A) := h.of_sublist (List.takeWhile_sublist _)
  have hiff := prefix_iff_name (str "disallow") c (by decide)
  unfold Spec.valueOf isDisallowLine
  rw [ToLower_ascii U _ hname, ToLower_ascii U c h, str_disallow_name]
  by_cases hp : HasPrefix (c.map asciiLower) (str "disallow" ++ [0x3A]) = true
  · obtain ⟨h1, h2⟩ := hiff.1 hp
    have hlen : (c.takeWhile fun b => b != 0x3A).length = 8 := by
      have := congrArg List.length h2
      rw [List.length_map] at this
      rw [this]
      decide
    rw [if_pos ⟨h1, h2⟩, if_pos hp, drop_after_colon c 8 hlen]
    unfold disallowValue
    rw [TrimSpace_ascii _ (h.of_sublist (List.drop_sublist _ _))]
  · have hq : ¬ (0x3A ∈ c ∧ (c.takeWhile fun b => b != 0x3A).map asciiLower = str "disallow") :=
      fun e => hp (hiff.2 e)
    rw [if_neg hq, if_neg hp]

theorem getLast_filterMap_eq_find {α β : Type} (f : α → Option β) (p : α → Bool) (g : α → β)
    (l : List α) (h : ∀ x ∈ l, f x = if p x then some (g x) else none) :
    (l.filterMap f).getLast? = (l.reverse.find? p).map g := by
  induction l using List.reverseRecOn with
  | nil => rfl
  | append_singleton l x ih =>
    have hx := h x (by simp)
    have ih' := ih fun y hy => h y (by simp [hy])
    rw [List.filterMap_append, List.reverse_append, List.reverse_singleton, List.singleton_append,
      List.find?_cons]
    by_cases hp : p x = true
    · rw [if_pos hp] at hx
      simp [List.filterMap_cons, hx, hp]
    · rw [if_neg hp] at hx
      simp only [Bool.not_eq_true] at hp
      simp [List.filterMap_cons, hx, hp, ih']

theorem governed_ascii (U : Unicode) (a : GoString) (cs : List GoString)
    (h : ∀ c ∈ cs, IsASCII c) : Spec.governed U a cs = governed U a cs := by
  unfold Spec.governed governed
  rw [getLast_filterMap_eq_find (Spec.valueOf U (str "user-agent")) (isUserAgentLine U) agentValue
    cs fun c hc => valueOf_userAgent_ascii U c (h c hc)]
  cases cs.reverse.find? (isUserAgentLine U) <;> rfl

theorem ruleAt_ascii (U : Unicode) (a : GoString) (cs : List GoString)
    (h : ∀ c ∈ cs, IsASCII c) (i : Nat) : Spec.ruleAt U a cs i = ruleAt U a cs i := by
  have hc : IsASCII (cs.getD i []) := by
    rw [List.getD_eq_getElem?_getD]
    cases hi : cs[i]? with
    | none =>
      intro b hb
      simp at hb
    | some c => exact h c (List.getElem?_mem hi)
  have hg := governed_ascii U a (cs.take i) fun c hc' => h c (List.mem_of_mem_take hc')
  unfold Spec.ruleAt ruleAt
  rw [valueOf_disallow_ascii U _ hc, hg]
  by_cases hd : isDisallowLine U (cs.getD i []) = true
  · simp only [hd, if_true, Bool.true_and]
  · simp only [Bool.not_eq_true] at hd
    simp only [hd, Bool.false_and, Bool.false_eq_true, if_false]

theorem rules_ascii (U : Unicode) (a body : GoString) (h : IsASCII body) :
    Spec.rules U a body = rulesOf U a body := by
  have hlines := SplitLines_ascii body h
  have hcs : (SplitLines body).map Spec.clean = (SplitLines body).map cleanLine :=
    List.map_congr_left fun l hl => ((cleanLine_ascii l (hlines l hl)).1).symm
  have hascii : ∀ c ∈ (SplitLines body).map cleanLine, IsASCII c := by
    intro c hc
    obtain ⟨l, hl, rfl⟩ := List.mem_map.1 hc
    exact (cleanLine_ascii l (hlines l hl)).2
  unfold Spec.rules rulesOf
  simp only [hcs]
  exact List.filterMap_congr fun i _ => ruleAt_ascii U a _ hascii i

/-- C3, at the failing input and on ASCII text.  With `disallow` spelled with `İ`,
whose lower case is one byte shorter, `parse` takes the value from byte 9 of the
line and so keeps the colon: it stores `: /x` where the value is `/x`, and `:`
for the line that has no value, which as specified adds nothing.  On every ASCII
body `parse` returns exactly what is specified: the rule list followed, in file
order, by the trimmed non-empty values of the `disallow` lines whose most recent
preceding `user-agent` line has the value `*` or the configured agent up to
case. -/
theorem parse_value_offset :
    RobotsChecker.parse Example.shortening { disallowed := [], userAgent := str "Crawler" }
      Example.dottedRobots =
      some { disallowed := [str ": /x", str ":", str "/y"], userAgent := str "Crawler" } ∧
    Spec.rules Example.shortening (str "Crawler") Example.dottedRobots = [str "/x", str "/y"] ∧
    (∀ (U : Unicode) (rc : RobotsChecker) (body : GoString), IsASCII body →
      rc.parse U body =
        some { rc with disallowed := rc.disallowed ++ Spec.rules U rc.userAgent body }) := by
  refine ⟨by decide, by decide, fun U rc body h => ?_⟩
  rw [rules_ascii U rc.userAgent body h]
  exact (parse_appends_rules U rc body).1

end Crawler
